import Mathlib

/-
Verification of the cacherno bounded-capacity cache library (Go sources in
src/lru/lru.go and src/lfu/lfu.go) against its natural-language specification.

The embedding is a shallow one:
 - Go maps become association lists with Nat keys (`lookupA`, `insertA`, `eraseA`);
 - heap-allocated entry nodes become records stored in an explicit heap
   (an association list from node id to record), and Go pointers `*entry`
   become `Option Nat` (none is the nil pointer);
 - the Go `any` (interface) fields `head`/`tail` of the LFU `frequencyNode`
   become `Option (Option Nat)`: `none` is the nil interface value, while
   `some p` is an interface value wrapping the typed pointer `p`.  This
   distinction matters: assigning a nil `*entry` into an `any` field yields
   `some none`, which is NOT equal to the nil interface, exactly as in Go;
 - a runtime panic (nil-pointer dereference, type assertion on the nil
   interface) is modelled by `Option`: each operation returns `none` when the
   corresponding Go execution panics.

All cache keys and values are instantiated at Nat (the Go code is generic;
every claim is about the bookkeeping, which never inspects keys or values
beyond equality).
-/

/-! ## Association lists (the model of Go maps) -/

abbrev Assoc (β : Type) : Type := List (Nat × β)

def lookupA {β : Type} : Assoc β → Nat → Option β
  | [], _ => none
  | (k', v') :: t, k => if k' = k then some v' else lookupA t k

def insertA {β : Type} : Assoc β → Nat → β → Assoc β
  | [], k, v => [(k, v)]
  | (k', v') :: t, k, v => if k' = k then (k, v) :: t else (k', v') :: insertA t k v

def eraseA {β : Type} : Assoc β → Nat → Assoc β
  | [], _ => []
  | (k', v') :: t, k => if k' = k then t else (k', v') :: eraseA t k

/-! ## Doubly linked chains inside a heap

`ChainF pv nx h p L n` says the ids in `L` form a doubly linked segment in the
heap `h`: the first node's `prev` (projection `pv`) is `p`, consecutive nodes
point at each other, and the last node's `next` (projection `nx`) is `n`. -/

def headOr (L : List Nat) (n : Option Nat) : Option Nat :=
  match L with
  | [] => n
  | j :: _ => some j

def back (p : Option Nat) : List Nat → Option Nat
  | [] => p
  | i :: rest => back (some i) rest

def ChainF {α : Type} (pv nx : α → Option Nat) (h : Assoc α) :
    Option Nat → List Nat → Option Nat → Prop
  | _, [], _ => True
  | p, i :: rest, n =>
      ∃ e, lookupA h i = some e ∧ pv e = p ∧ nx e = headOr rest n ∧
        ChainF pv nx h (some i) rest n

/-! ## The LRU engine (src/lru/lru.go) -/

structure LruEntry where
  key : Nat
  value : Nat
  prev : Option Nat
  next : Option Nat
deriving DecidableEq, Repr

structure LruCache where
  heap : Assoc LruEntry
  data : Assoc Nat
  capacity : Nat
  head : Option Nat
  tail : Option Nat
  nextId : Nat
deriving DecidableEq, Repr

namespace Lru

/-- Reads the entry a (non-nil) pointer refers to; fails only for dangling
ids, which never occur in states reachable from a fresh cache. -/
def hGet (c : LruCache) (i : Nat) : Option LruEntry :=
  lookupA c.heap i

def hSet (c : LruCache) (i : Nat) (e : LruEntry) : LruCache :=
  { c with heap := insertA c.heap i e }

/-- `func NewCache[K,V](capacity uint) (*Cache[K,V], error)`; `capacity <= 0`
over the unsigned domain is `capacity = 0`. -/
def NewCache (capacity : Nat) : Except String LruCache :=
  if capacity = 0 then
    Except.error ("must provide a positive size")
  else
    Except.ok { heap := [], data := [], capacity := capacity,
                head := none, tail := none, nextId := 0 }

/-- The cache state `NewCache` returns on success. -/
def init (capacity : Nat) : LruCache :=
  { heap := [], data := [], capacity := capacity,
    head := none, tail := none, nextId := 0 }

/-- `func (c *Cache[K, V]) addToFront(node *entry[K, V])`. -/
def addToFront (c : LruCache) (nid : Nat) : Option LruCache :=
  match c.head with
  | none => some { c with head := some nid, tail := some nid }
  | some hid => do
      let node ← hGet c nid
      let c1 := hSet c nid { node with next := some hid, prev := none }
      let he ← hGet c1 hid
      let c2 := hSet c1 hid { he with prev := some nid }
      some { c2 with head := some nid }

/-- `func (c *Cache[K, V]) removeFromList(node *entry[K, V])`. -/
def removeFromList (c : LruCache) (nid : Nat) : Option LruCache := do
  let node ← hGet c nid
  let c1 ←
    match node.prev with
    | some p => do
        let pe ← hGet c p
        pure (hSet c p { pe with next := node.next })
    | none => pure { c with head := node.next }
  let node2 ← hGet c1 nid
  match node2.next with
  | some nx => do
      let ne ← hGet c1 nx
      pure (hSet c1 nx { ne with prev := node2.prev })
  | none => pure { c1 with tail := node2.prev }

/-- `func (c *Cache[K, V]) moveToFront(node *entry[K, V])`; `node == c.head`
is pointer equality. -/
def moveToFront (c : LruCache) (nid : Nat) : Option LruCache :=
  if c.head = some nid then some c
  else do
    let c1 ← removeFromList c nid
    addToFront c1 nid

/-- `func (c *Cache[K, V]) removeTail()`. -/
def removeTail (c : LruCache) : Option LruCache :=
  match c.tail with
  | none => some c
  | some t => do
      let te ← hGet c t
      let c1 := { c with data := eraseA c.data te.key }
      removeFromList c1 t

/-- `func (c *Cache[K, V]) Add(key K, value V) (evicted bool, rewritten bool)`. -/
def Add (c : LruCache) (key value : Nat) : Option ((Bool × Bool) × LruCache) :=
  match lookupA c.data key with
  | some nid => do
      let node ← hGet c nid
      let c1 := hSet c nid { node with value := value }
      let c2 ← moveToFront c1 nid
      some ((false, true), c2)
  | none =>
      let nid := c.nextId
      let c1 := { c with
        heap := insertA c.heap nid { key := key, value := value, prev := none, next := none },
        data := insertA c.data key nid,
        nextId := c.nextId + 1 }
      do
        let c2 ← addToFront c1 nid
        if c2.capacity < c2.data.length then do
          let c3 ← removeTail c2
          some ((true, false), c3)
        else
          some ((false, false), c2)

/-- `func (c *Cache[K, V]) Get(key K) (V, bool)`; the zero value of the Nat
value type is 0. -/
def Get (c : LruCache) (key : Nat) : Option ((Nat × Bool) × LruCache) :=
  match lookupA c.data key with
  | some nid => do
      let c1 ← moveToFront c nid
      let node ← hGet c1 nid
      some ((node.value, true), c1)
  | none => some ((0, false), c)

/-- `func (c *Cache[K, V]) Remove(key K) bool` (`removeNode` is
`removeFromList`). -/
def Remove (c : LruCache) (key : Nat) : Option (Bool × LruCache) :=
  match lookupA c.data key with
  | some nid => do
      let c1 ← removeFromList c nid
      some (true, { c1 with data := eraseA c1.data key })
  | none => some (false, c)

end Lru

/-! ## The LFU engine (src/lfu/lfu.go) -/

structure LfuEntry where
  key : Nat
  value : Nat
  frequency : Nat
  prev : Option Nat
  next : Option Nat
deriving DecidableEq, Repr

/-- `type frequencyNode struct`; `head`/`tail` have Go type `any` and hold
`*entry` values.  The declared `prev`/`next` bucket-chain fields are never
read or written anywhere in the source, so they are omitted. -/
structure FrequencyNode where
  freq : Nat
  head : Option (Option Nat)
  tail : Option (Option Nat)
deriving DecidableEq, Repr

structure LfuCache where
  heap : Assoc LfuEntry
  data : Assoc Nat
  frequencies : Assoc FrequencyNode
  capacity : Nat
  minFrequency : Nat
  nextId : Nat
deriving DecidableEq, Repr

namespace Lfu

def hGet (c : LfuCache) (i : Nat) : Option LfuEntry :=
  lookupA c.heap i

def hSet (c : LfuCache) (i : Nat) (e : LfuEntry) : LfuCache :=
  { c with heap := insertA c.heap i e }

def NewCache (capacity : Nat) : Except String LfuCache :=
  if capacity = 0 then
    Except.error ("must provide a positive size")
  else
    Except.ok { heap := [], data := [], frequencies := [],
                capacity := capacity, minFrequency := 0, nextId := 0 }

/-- The cache state `NewCache` returns on success. -/
def init (capacity : Nat) : LfuCache :=
  { heap := [], data := [], frequencies := [],
    capacity := capacity, minFrequency := 0, nextId := 0 }

/-- `func (c *Cache[K, V]) removeFromFrequency(node *entry[K, V])`.
The argument is a pointer that may be nil (`evictLeastFrequent` can pass a
typed-nil pointer recovered from an `any` field); the first field access
`node.frequency` then panics. -/
def removeFromFrequency (c : LfuCache) (nodeP : Option Nat) : Option LfuCache := do
  let nid ← nodeP
  let node ← hGet c nid
  match lookupA c.frequencies node.frequency with
  | none => some c
  | some fn => do
      let (c1, fn1) ←
        match node.prev with
        | some p => do
            let pe ← hGet c p
            pure (hSet c p { pe with next := node.next }, fn)
        | none => pure (c, { fn with head := some node.next })
      let node2 ← hGet c1 nid
      let (c2, fn2) ←
        match node2.next with
        | some nx => do
            let ne ← hGet c1 nx
            pure (hSet c1 nx { ne with prev := node2.prev }, fn1)
        | none => pure (c1, { fn1 with tail := some node2.prev })
      let c3 := { c2 with frequencies := insertA c2.frequencies node.frequency fn2 }
      let node3 ← hGet c3 nid
      let c4 := if fn2.head = none then
          { c3 with frequencies := eraseA c3.frequencies node3.frequency }
        else c3
      some (hSet c4 nid { node3 with prev := none, next := none })

/-- `func (c *Cache[K, V]) addToFrequency(node *entry[K, V], freq uint)`.
`freqNode.head == nil` compares the interface against nil, so an emptied
bucket whose head holds a typed-nil pointer (`some none`) takes the else
branch and dereferences the nil pointer: a panic. -/
def addToFrequency (c : LfuCache) (nid : Nat) (freq : Nat) : Option LfuCache :=
  let (c0, fn) :=
    match lookupA c.frequencies freq with
    | some fn => (c, fn)
    | none =>
        let fn : FrequencyNode := { freq := freq, head := none, tail := none }
        ({ c with frequencies := insertA c.frequencies freq fn }, fn)
  if fn.head = none then
    let fs := insertA c0.frequencies freq
      { fn with head := some (some nid), tail := some (some nid) }
    some { c0 with frequencies := fs }
  else do
    let hp ← fn.head
    let node ← hGet c0 nid
    let c1 := hSet c0 nid { node with next := hp }
    let hid ← hp
    let he ← hGet c1 hid
    let c2 := hSet c1 hid { he with prev := some nid }
    some { c2 with frequencies := insertA c2.frequencies freq { fn with head := some (some nid) } }

/-- `func (c *Cache[K, V]) incrementFrequency(node *entry[K, V])`. -/
def incrementFrequency (c : LfuCache) (nid : Nat) : Option LfuCache := do
  let node ← hGet c nid
  let oldFreq := node.frequency
  let newFreq := oldFreq + 1
  let c1 ← removeFromFrequency c (some nid)
  let node1 ← hGet c1 nid
  let c2 := hSet c1 nid { node1 with frequency := newFreq }
  let c3 ← addToFrequency c2 nid newFreq
  if oldFreq = c3.minFrequency ∧ lookupA c3.frequencies oldFreq = none then
    some { c3 with minFrequency := newFreq }
  else
    some c3

/-- `func (c *Cache[K, V]) evictLeastFrequent()`; `freqNode.tail == nil` is
again an interface comparison, so a typed-nil tail slips past the guard and
is passed to `removeFromFrequency`, which panics dereferencing it. -/
def evictLeastFrequent (c : LfuCache) : Option LfuCache :=
  if c.data.length = 0 then some c
  else
    match lookupA c.frequencies c.minFrequency with
    | none => some c
    | some fn =>
        match fn.tail with
        | none => some c
        | some p => do
            let c1 ← removeFromFrequency c p
            let lid ← p
            let le ← hGet c1 lid
            some { c1 with data := eraseA c1.data le.key }

/-- `func (c *Cache[K, V]) Add(key K, value V) (evicted bool, rewritten bool)`. -/
def Add (c : LfuCache) (key value : Nat) : Option ((Bool × Bool) × LfuCache) :=
  match lookupA c.data key with
  | some nid => do
      let node ← hGet c nid
      let c1 := hSet c nid { node with value := value }
      let c2 ← incrementFrequency c1 nid
      some ((false, true), c2)
  | none => do
      let (evicted, c1) ←
        if c.capacity ≤ c.data.length then do
          let cE ← evictLeastFrequent c
          pure (true, cE)
        else
          pure (false, c)
      let nid := c1.nextId
      let c2 := { c1 with
        heap := insertA c1.heap nid
          { key := key, value := value, frequency := 1, prev := none, next := none },
        data := insertA c1.data key nid,
        nextId := c1.nextId + 1 }
      let c3 ← addToFrequency c2 nid 1
      some ((evicted, false), { c3 with minFrequency := 1 })

/-- `func (c *Cache[K, V]) Get(key K) (V, bool)`. -/
def Get (c : LfuCache) (key : Nat) : Option ((Nat × Bool) × LfuCache) :=
  match lookupA c.data key with
  | some nid => do
      let c1 ← incrementFrequency c nid
      let node ← hGet c1 nid
      some ((node.value, true), c1)
  | none => some ((0, false), c)

/-- `func (c *Cache[K, V]) Remove(key K) bool`. -/
def Remove (c : LfuCache) (key : Nat) : Option (Bool × LfuCache) :=
  match lookupA c.data key with
  | some nid => do
      let c1 ← removeFromFrequency c (some nid)
      some (true, { c1 with data := eraseA c1.data key })
  | none => some (false, c)

end Lfu

/-! ## Call sequences -/

inductive Op where
  | add (k v : Nat)
  | get (k : Nat)
  | rem (k : Nat)
deriving DecidableEq, Repr

def lruStep (c : LruCache) : Op → Option LruCache
  | Op.add k v => (Lru.Add c k v).map Prod.snd
  | Op.get k => (Lru.Get c k).map Prod.snd
  | Op.rem k => (Lru.Remove c k).map Prod.snd

def lruRun (c : LruCache) : List Op → Option LruCache
  | [] => some c
  | op :: rest =>
      match lruStep c op with
      | none => none
      | some c2 => lruRun c2 rest

def lfuStep (c : LfuCache) : Op → Option LfuCache
  | Op.add k v => (Lfu.Add c k v).map Prod.snd
  | Op.get k => (Lfu.Get c k).map Prod.snd
  | Op.rem k => (Lfu.Remove c k).map Prod.snd

def lfuRun (c : LfuCache) : List Op → Option LfuCache
  | [] => some c
  | op :: rest =>
      match lfuStep c op with
      | none => none
      | some c2 => lfuRun c2 rest

/-! ## The locking discipline (src/lru/lru.go and src/lfu/lfu.go)

Which side of the `sync.RWMutex` each public operation acquires, read
directly off the source: `RLock`/`RUnlock` is the shared side, `Lock`/
`Unlock` the exclusive side. -/

inductive LockKind where
  | shared
  | exclusive
deriving DecidableEq, Repr

/-- `Get` does `c.lock.RLock()` in src/lru/lru.go. -/
def lruGetLock : LockKind := LockKind.shared

/-- `Add` does `c.lock.Lock()` in src/lru/lru.go. -/
def lruAddLock : LockKind := LockKind.exclusive

/-- `Remove` does `c.lock.Lock()` in src/lru/lru.go. -/
def lruRemoveLock : LockKind := LockKind.exclusive

/-- `Get` does `c.lock.RLock()` in src/lfu/lfu.go. -/
def lfuGetLock : LockKind := LockKind.shared

/-- `Add` does `c.lock.Lock()` in src/lfu/lfu.go. -/
def lfuAddLock : LockKind := LockKind.exclusive

/-- `Remove` does `c.lock.Lock()` in src/lfu/lfu.go. -/
def lfuRemoveLock : LockKind := LockKind.exclusive

/-! ## Helpers for stating concrete executions -/

def exceptErr {α : Type} : Except String α → Bool
  | Except.error _ => true
  | Except.ok _ => false

def exceptOk {α : Type} : Except String α → Option α
  | Except.error _ => none
  | Except.ok a => some a

/-- The state a completed LRU run ends in (dummy initial state on panic;
used only on runs proved to complete). -/
def runLruD (cap : Nat) (ops : List Op) : LruCache :=
  (lruRun (Lru.init cap) ops).getD (Lru.init cap)

/-- The state a completed LFU run ends in. -/
def runLfuD (cap : Nat) (ops : List Op) : LfuCache :=
  (lfuRun (Lfu.init cap) ops).getD (Lfu.init cap)

/-- The multiset of frequencies of the live entries (one per key in the
index), read through the heap. -/
def lfuLiveFreqs (s : LfuCache) : List Nat :=
  s.data.map (fun p => ((lookupA s.heap p.2).map LfuEntry.frequency).getD 0)

/-! ## Claims settled by concrete executions -/

/-- Claim C1: refuted on the code.  The claim says every public operation on
either engine is total on every reachable state, never hitting a
nil-dereference after a bucket has been emptied.  Counterexample: with
capacity 2, the sequence Add(1),Add(2),Get(1),Get(2) completes and leaves the
frequency-1 bucket emptied with typed-nil head/tail interface fields; the
next Add(3) calls evictLeastFrequent, whose `freqNode.tail == nil` guard does
not fire on the typed-nil interface value, and removeFromFrequency
dereferences the nil entry pointer (`node.frequency`): a panic, modelled as
`none`. -/
theorem lfu_ops_panic_after_emptied_bucket :
    (lfuRun (Lfu.init 2) [Op.add 1 10, Op.add 2 20, Op.get 1, Op.get 2]).isSome = true ∧
    lfuRun (Lfu.init 2) [Op.add 1 10, Op.add 2 20, Op.get 1, Op.get 2, Op.add 3 30] = none := by
  decide

/-- Claim C2: refuted on the code.  After Add(1);Get(1) on a capacity-1 LFU
cache the only live entry has frequency 2, yet frequency 1 is still a key of
the frequencies map: removing the bucket's last entry stored a typed-nil
entry pointer in `head`, so the `freqNode.head == nil` deletion check in
removeFromFrequency is false and the empty bucket is never deleted. -/
theorem lfu_empty_bucket_not_deleted :
    (lfuRun (Lfu.init 1) [Op.add 1 10, Op.get 1]).isSome = true ∧
    (lookupA (runLfuD 1 [Op.add 1 10, Op.get 1]).frequencies 1).isSome = true ∧
    1 ∉ lfuLiveFreqs (runLfuD 1 [Op.add 1 10, Op.get 1]) ∧
    (runLfuD 1 [Op.add 1 10, Op.get 1]).data ≠ [] := by
  decide

/-- Claim C3: refuted on the code.  After Add(5);Add(6);Get(5);Get(6) on a
capacity-2 LFU cache, the cache is non-empty and both live entries have
frequency 2, so the smallest frequency whose bucket holds an entry is 2 — but
minFrequency is still 1: incrementFrequency only advances it when the old
bucket is gone from the map, and the emptied bucket is never deleted. -/
theorem lfu_minFrequency_points_at_empty_bucket :
    (lfuRun (Lfu.init 2) [Op.add 5 50, Op.add 6 60, Op.get 5, Op.get 6]).isSome = true ∧
    (runLfuD 2 [Op.add 5 50, Op.add 6 60, Op.get 5, Op.get 6]).minFrequency = 1 ∧
    lfuLiveFreqs (runLfuD 2 [Op.add 5 50, Op.add 6 60, Op.get 5, Op.get 6]) = [2, 2] ∧
    (runLfuD 2 [Op.add 5 50, Op.add 6 60, Op.get 5, Op.get 6]).data.length = 2 := by
  decide

/-- Claim C4: refuted on the code.  The claimed capacity-3 sequence
Add(k1);Add(k2);Add(k3);Get(k1);Get(k1);Get(k2);Add(k4) does not evict k3 and
leave k1,k2 hitting: the second Get(k1) empties the frequency-2 bucket
(typed-nil head survives in the map), and Get(k2) then panics inside
addToFrequency dereferencing that typed-nil head (`head.(*entry).prev`).
The first five calls complete; the sixth panics; Add(k4) is never reached. -/
theorem lfu_frequency_priority_trace_panics :
    (lfuRun (Lfu.init 3)
      [Op.add 1 1, Op.add 2 2, Op.add 3 3, Op.get 1, Op.get 1]).isSome = true ∧
    lfuRun (Lfu.init 3)
      [Op.add 1 1, Op.add 2 2, Op.add 3 3, Op.get 1, Op.get 1, Op.get 2] = none ∧
    lfuRun (Lfu.init 3)
      [Op.add 1 1, Op.add 2 2, Op.add 3 3, Op.get 1, Op.get 1, Op.get 2, Op.add 4 4] = none := by
  decide

/-- Claim C5: refuted on the code.  In both engines `Get` acquires the shared
side of the RWMutex (`RLock`), not the exclusive lock that `Add` and `Remove`
take — while `Get` on a hit mutates the shared list/bucket pointers (the two
final conjuncts exhibit a `Get` call that changes the cache state).  Two
promoting `Get`s may therefore splice pointers concurrently. -/
theorem get_lock_shared_while_get_mutates :
    lruGetLock = LockKind.shared ∧ lfuGetLock = LockKind.shared ∧
    lruAddLock = LockKind.exclusive ∧ lruRemoveLock = LockKind.exclusive ∧
    lfuAddLock = LockKind.exclusive ∧ lfuRemoveLock = LockKind.exclusive ∧
    lruGetLock ≠ lruAddLock ∧ lfuGetLock ≠ lfuAddLock ∧
    (Lru.Get (runLruD 2 [Op.add 1 1, Op.add 2 2]) 1).map Prod.snd ≠
      some (runLruD 2 [Op.add 1 1, Op.add 2 2]) ∧
    (Lfu.Get (runLfuD 2 [Op.add 1 1, Op.add 2 2]) 1).map Prod.snd ≠
      some (runLfuD 2 [Op.add 1 1, Op.add 2 2]) := by
  decide

/-- Claim C7: confirmed.  LRU, capacity 2: Add(a);Add(b);Get(a);Add(c) evicts
exactly b — the final Add returns (evicted=true, rewritten=false), b misses,
the index holds exactly two keys, and Get(a) then Get(c) both hit with their
stored values. -/
theorem lru_recency_order_eviction :
    (lruRun (Lru.init 2) [Op.add 1 1, Op.add 2 2, Op.get 1, Op.add 3 3]).isSome = true ∧
    (Lru.Add (runLruD 2 [Op.add 1 1, Op.add 2 2, Op.get 1]) 3 3).map Prod.fst
      = some (true, false) ∧
    lookupA (runLruD 2 [Op.add 1 1, Op.add 2 2, Op.get 1, Op.add 3 3]).data 2 = none ∧
    (runLruD 2 [Op.add 1 1, Op.add 2 2, Op.get 1, Op.add 3 3]).data.length = 2 ∧
    (Lru.Get (runLruD 2 [Op.add 1 1, Op.add 2 2, Op.get 1, Op.add 3 3]) 1).map Prod.fst
      = some (1, true) ∧
    (Lru.Get (runLruD 2 [Op.add 1 1, Op.add 2 2, Op.get 1, Op.add 3 3, Op.get 1]) 3).map Prod.fst
      = some (3, true) := by
  decide

/-- Claim C8: refuted on the code.  After Add(10);Get(10) on a capacity-1 LFU
cache, key 11 is absent and the index is at capacity, so the claim demands
Add(11) return (evicted=true, rewritten=false); instead the call panics (the
eviction dereferences the typed-nil tail of the emptied minimum bucket) and
returns nothing at all. -/
theorem lfu_add_at_capacity_panics :
    (lfuRun (Lfu.init 1) [Op.add 10 1, Op.get 10]).isSome = true ∧
    lookupA (runLfuD 1 [Op.add 10 1, Op.get 10]).data 11 = none ∧
    (runLfuD 1 [Op.add 10 1, Op.get 10]).data.length
      = (runLfuD 1 [Op.add 10 1, Op.get 10]).capacity ∧
    Lfu.Add (runLfuD 1 [Op.add 10 1, Op.get 10]) 11 2 = none := by
  decide

/-- Claim C10: partially refuted on the code.  Construction behaves exactly
as claimed: both engines reject capacity 0 with the "must provide a positive
size" error and no cache, and return a usable empty cache for positive
capacities.  But the construction check is not the only failure path in the
library: a freshly constructed capacity-1 LFU cache panics on the third call
of Add(10);Get(10);Add(11) (nil dereference during eviction). -/
theorem construction_error_and_runtime_panic_path :
    exceptErr (Lru.NewCache 0) = true ∧ exceptErr (Lfu.NewCache 0) = true ∧
    exceptOk (Lru.NewCache 0) = none ∧ exceptOk (Lfu.NewCache 0) = none ∧
    exceptOk (Lru.NewCache 1) = some (Lru.init 1) ∧
    exceptOk (Lfu.NewCache 1) = some (Lfu.init 1) ∧
    exceptOk (Lru.NewCache 3) = some (Lru.init 3) ∧
    exceptOk (Lfu.NewCache 3) = some (Lfu.init 3) ∧
    lfuRun (Lfu.init 1) [Op.add 10 5, Op.get 10, Op.add 11 6] = none := by
  decide

/-! ## Association list lemmas -/

theorem lookupA_insertA_self {β : Type} (l : Assoc β) (k : Nat) (v : β) :
    lookupA (insertA l k v) k = some v := by
  induction l with
  | nil => simp [insertA, lookupA]
  | cons hd t ih =>
      obtain ⟨k', v'⟩ := hd
      by_cases h : k' = k
      · subst h; simp [insertA, lookupA]
      · simp [insertA, lookupA, h, ih]

theorem lookupA_insertA_ne {β : Type} (l : Assoc β) (k k' : Nat) (v : β) (h : k' ≠ k) :
    lookupA (insertA l k v) k' = lookupA l k' := by
  induction l with
  | nil =>
      simp only [insertA, lookupA]
      rw [if_neg (fun hh => h hh.symm)]
  | cons hd t ih =>
      obtain ⟨a, b⟩ := hd
      by_cases ha : a = k
      · subst ha
        simp only [insertA, if_pos rfl, lookupA]
        rw [if_neg (fun hh => h hh.symm), if_neg (fun hh => h hh.symm)]
      · simp only [insertA, if_neg ha, lookupA]
        by_cases ha' : a = k'
        · rw [if_pos ha', if_pos ha']
        · rw [if_neg ha', if_neg ha', ih]

theorem lookupA_eq_none_iff {β : Type} (l : Assoc β) (k : Nat) :
    lookupA l k = none ↔ k ∉ l.map Prod.fst := by
  induction l with
  | nil => simp [lookupA]
  | cons hd t ih =>
      obtain ⟨a, b⟩ := hd
      by_cases ha : a = k
      · subst ha; simp [lookupA]
      · simp [lookupA, ha, ih, Ne.symm ha]

theorem lookupA_isSome_iff {β : Type} (l : Assoc β) (k : Nat) :
    (lookupA l k).isSome = true ↔ k ∈ l.map Prod.fst := by
  rw [← Decidable.not_iff_not, ← lookupA_eq_none_iff]
  cases lookupA l k <;> simp

theorem keys_insertA {β : Type} (l : Assoc β) (k a : Nat) (v : β) :
    a ∈ (insertA l k v).map Prod.fst ↔ a = k ∨ a ∈ l.map Prod.fst := by
  induction l with
  | nil => simp [insertA]
  | cons hd t ih =>
      obtain ⟨k', v'⟩ := hd
      by_cases h : k' = k
      · subst h
        have hins : insertA ((k', v') :: t) k' v = (k', v) :: t := by
          simp [insertA]
        rw [hins]
        simp only [List.map_cons, List.mem_cons]
        tauto
      · simp only [insertA, if_neg h, List.map_cons, List.mem_cons, ih]
        tauto

theorem nodupKeys_insertA {β : Type} (l : Assoc β) (k : Nat) (v : β)
    (h : (l.map Prod.fst).Nodup) : ((insertA l k v).map Prod.fst).Nodup := by
  induction l with
  | nil => simp [insertA]
  | cons hd t ih =>
      obtain ⟨k', v'⟩ := hd
      simp only [List.map_cons, List.nodup_cons] at h
      by_cases hk : k' = k
      · subst hk; simpa [insertA] using h
      · simp only [insertA, if_neg hk, List.map_cons, List.nodup_cons]
        refine ⟨?_, ih h.2⟩
        rw [keys_insertA]
        rintro (rfl | hmem)
        · exact hk rfl
        · exact h.1 hmem

theorem length_insertA_absent {β : Type} (l : Assoc β) (k : Nat) (v : β)
    (h : lookupA l k = none) : (insertA l k v).length = l.length + 1 := by
  induction l with
  | nil => simp [insertA]
  | cons hd t ih =>
      obtain ⟨a, b⟩ := hd
      simp only [lookupA] at h
      by_cases ha : a = k
      · simp [ha] at h
      · simp only [insertA, if_neg ha, List.length_cons]
        rw [ih (by simpa [ha] using h)]

theorem length_insertA_present {β : Type} (l : Assoc β) (k : Nat) (v : β)
    (h : (lookupA l k).isSome = true) : (insertA l k v).length = l.length := by
  induction l with
  | nil => simp [lookupA] at h
  | cons hd t ih =>
      obtain ⟨a, b⟩ := hd
      by_cases ha : a = k
      · subst ha; simp [insertA]
      · simp only [lookupA, if_neg ha] at h
        simp [insertA, ha, ih h]

theorem eraseA_absent {β : Type} (l : Assoc β) (k : Nat)
    (h : lookupA l k = none) : eraseA l k = l := by
  induction l with
  | nil => rfl
  | cons hd t ih =>
      obtain ⟨a, b⟩ := hd
      simp only [lookupA] at h
      by_cases ha : a = k
      · simp [ha] at h
      · simp only [eraseA, if_neg ha]
        rw [ih (by simpa [ha] using h)]

theorem length_eraseA_present {β : Type} (l : Assoc β) (k : Nat)
    (h : (lookupA l k).isSome = true) : (eraseA l k).length + 1 = l.length := by
  induction l with
  | nil => simp [lookupA] at h
  | cons hd t ih =>
      obtain ⟨a, b⟩ := hd
      by_cases ha : a = k
      · simp [eraseA, ha]
      · simp only [lookupA, if_neg ha] at h
        simp [eraseA, ha, ih h]

theorem keys_eraseA_sub {β : Type} (l : Assoc β) (k a : Nat) :
    a ∈ (eraseA l k).map Prod.fst → a ∈ l.map Prod.fst := by
  induction l with
  | nil => simp [eraseA]
  | cons hd t ih =>
      obtain ⟨k', v'⟩ := hd
      by_cases h : k' = k
      · subst h; simp [eraseA]; tauto
      · simp only [eraseA, if_neg h, List.map_cons, List.mem_cons]
        rintro (rfl | hmem)
        · exact Or.inl rfl
        · exact Or.inr (ih hmem)

theorem nodupKeys_eraseA {β : Type} (l : Assoc β) (k : Nat)
    (h : (l.map Prod.fst).Nodup) : ((eraseA l k).map Prod.fst).Nodup := by
  induction l with
  | nil => simp [eraseA]
  | cons hd t ih =>
      obtain ⟨k', v'⟩ := hd
      simp only [List.map_cons, List.nodup_cons] at h
      by_cases hk : k' = k
      · subst hk
        simp only [eraseA, if_pos rfl]
        exact h.2
      · simp only [eraseA, if_neg hk, List.map_cons, List.nodup_cons]
        exact ⟨fun hmem => h.1 (keys_eraseA_sub t k k' hmem), ih h.2⟩

theorem lookupA_eraseA {β : Type} (l : Assoc β) (k k' : Nat)
    (hnd : (l.map Prod.fst).Nodup) :
    lookupA (eraseA l k) k' = if k' = k then none else lookupA l k' := by
  induction l with
  | nil => simp [eraseA, lookupA]
  | cons hd t ih =>
      obtain ⟨a, b⟩ := hd
      simp only [List.map_cons, List.nodup_cons] at hnd
      by_cases ha : a = k
      · subst ha
        have he : eraseA ((a, b) :: t) a = t := by
          simp [eraseA]
        rw [he]
        by_cases hk' : k' = a
        · subst hk'
          rw [if_pos rfl, (lookupA_eq_none_iff t k').2 hnd.1]
        · rw [if_neg hk']
          simp only [lookupA]
          rw [if_neg (fun hh => hk' hh.symm)]
      · have he : eraseA ((a, b) :: t) k = (a, b) :: eraseA t k := by
          simp [eraseA, ha]
        rw [he]
        simp only [lookupA]
        by_cases ha' : a = k'
        · subst ha'
          rw [if_pos rfl, if_neg (fun hh : a = k => ha hh), if_pos rfl]
        · rw [if_neg ha', ih hnd.2]
          by_cases hk : k' = k
          · rw [if_pos hk, if_pos hk]
          · rw [if_neg hk, if_neg hk, if_neg ha']

theorem lookupA_eraseA_self {β : Type} (l : Assoc β) (k : Nat)
    (hnd : (l.map Prod.fst).Nodup) : lookupA (eraseA l k) k = none := by
  simp [lookupA_eraseA l k k hnd]

/-! ## Chain lemmas -/

theorem headOr_append (A B : List Nat) (n : Option Nat) :
    headOr (A ++ B) n = headOr A (headOr B n) := by
  cases A <;> rfl

theorem headOr_cons (a : Nat) (A : List Nat) (n : Option Nat) :
    headOr (a :: A) n = some a := rfl

theorem back_cons_irrel (p q : Option Nat) (i : Nat) (rest : List Nat) :
    back p (i :: rest) = back q (i :: rest) := rfl

theorem back_append (p : Option Nat) (A B : List Nat) :
    back p (A ++ B) = back (back p A) B := by
  induction A generalizing p with
  | nil => rfl
  | cons a A ih => simpa [back] using ih (some a)

theorem back_concat (p : Option Nat) (A : List Nat) (t : Nat) :
    back p (A ++ [t]) = some t := by
  rw [back_append]; rfl

theorem back_ne_nil_irrel (p q : Option Nat) (L : List Nat) (h : L ≠ []) :
    back p L = back q L := by
  cases L with
  | nil => exact absurd rfl h
  | cons i rest => rfl

theorem chainF_congr_links {α : Type} (pv nx : α → Option Nat) (h h2 : Assoc α)
    (L : List Nat) (n : Option Nat)
    (hsame : ∀ i ∈ L, ∀ e, lookupA h i = some e →
      ∃ e2, lookupA h2 i = some e2 ∧ pv e2 = pv e ∧ nx e2 = nx e) :
    ∀ p, ChainF pv nx h p L n → ChainF pv nx h2 p L n := by
  induction L with
  | nil => intro p _; trivial
  | cons i rest ih =>
      intro p hch
      simp only [ChainF] at hch ⊢
      obtain ⟨e, he, hp, hn, hrest⟩ := hch
      obtain ⟨e2, he2, hp2, hn2⟩ := hsame i (List.mem_cons_self i rest) e he
      exact ⟨e2, he2, hp2.trans hp, hn2.trans hn,
        ih (fun j hj => hsame j (List.mem_cons_of_mem i hj)) (some i) hrest⟩

theorem chainF_congr {α : Type} (pv nx : α → Option Nat) (h h2 : Assoc α)
    (L : List Nat) (p n : Option Nat)
    (hsame : ∀ i ∈ L, lookupA h2 i = lookupA h i)
    (hch : ChainF pv nx h p L n) : ChainF pv nx h2 p L n := by
  refine chainF_congr_links pv nx h h2 L n ?_ p hch
  intro i hi e he
  exact ⟨e, (hsame i hi).trans he, rfl, rfl⟩

theorem chainF_append {α : Type} (pv nx : α → Option Nat) (h : Assoc α)
    (A B : List Nat) (p n : Option Nat) :
    ChainF pv nx h p (A ++ B) n ↔
      ChainF pv nx h p A (headOr B n) ∧ ChainF pv nx h (back p A) B n := by
  induction A generalizing p with
  | nil => simp [ChainF, back]
  | cons a A ih =>
      rw [show (a :: A) ++ B = a :: (A ++ B) from rfl]
      simp only [ChainF]
      constructor
      · rintro ⟨e, he, hp, hn, hrest⟩
        have hsplit := (ih (some a)).1 hrest
        refine ⟨⟨e, he, hp, ?_, hsplit.1⟩, ?_⟩
        · rw [hn, headOr_append]
        · have hb : back p (a :: A) = back (some a) A := rfl
          rw [hb]; exact hsplit.2
      · rintro ⟨⟨e, he, hp, hn, hA⟩, hB⟩
        refine ⟨e, he, hp, ?_, (ih (some a)).2 ⟨hA, ?_⟩⟩
        · rw [hn, headOr_append]
        · exact hB

theorem chainF_lookup {α : Type} (pv nx : α → Option Nat) (h : Assoc α)
    (L : List Nat) (n : Option Nat) (i : Nat) :
    ∀ p, ChainF pv nx h p L n → i ∈ L → ∃ e, lookupA h i = some e := by
  induction L with
  | nil => intro p _ hi; simp at hi
  | cons j rest ih =>
      intro p hch hi
      simp only [ChainF] at hch
      obtain ⟨e, he, _, _, hrest⟩ := hch
      rcases List.mem_cons.1 hi with rfl | hi'
      · exact ⟨e, he⟩
      · exact ih (some j) hrest hi'

/-! ## Well-formed LRU states

`LruListOk c L` says the ids in `L` are exactly the intrusive list of the
cache, linked from head to tail. -/

abbrev LruChain (h : Assoc LruEntry) : Option Nat → List Nat → Option Nat → Prop :=
  ChainF LruEntry.prev LruEntry.next h

def LruListOk (c : LruCache) (L : List Nat) : Prop :=
  LruChain c.heap none L none ∧ c.head = headOr L none ∧
  c.tail = back none L ∧ L.Nodup

/-- Two heaps with the same domain and the same `key` field everywhere (the
list primitives only rewrite `prev`/`next`). -/
def KeysSame (h h2 : Assoc LruEntry) : Prop :=
  ∀ i, (lookupA h2 i).map LruEntry.key = (lookupA h i).map LruEntry.key

theorem keysSame_refl (h : Assoc LruEntry) : KeysSame h h := fun _ => rfl

theorem keysSame_trans {h1 h2 h3 : Assoc LruEntry}
    (a : KeysSame h1 h2) (b : KeysSame h2 h3) : KeysSame h1 h3 :=
  fun i => (b i).trans (a i)

theorem keysSame_insert (h : Assoc LruEntry) (j : Nat) (e e2 : LruEntry)
    (hj : lookupA h j = some e) (hk : e2.key = e.key) :
    KeysSame h (insertA h j e2) := by
  intro i
  by_cases hij : i = j
  · subst hij
    rw [lookupA_insertA_self, hj]
    simp [hk]
  · rw [lookupA_insertA_ne _ _ _ _ hij]

theorem headOr_ne_nil (A : List Nat) (x y : Option Nat) (h : A ≠ []) :
    headOr A x = headOr A y := by
  cases A with
  | nil => exact absurd rfl h
  | cons a t => rfl

theorem headOr_append_ne_nil (A : List Nat) (h : A ≠ []) (L M : List Nat)
    (n m : Option Nat) : headOr (A ++ L) n = headOr (A ++ M) m := by
  cases A with
  | nil => exact absurd rfl h
  | cons a t => rfl

/-- `removeFromList` on a node in the middle of a well-linked list splices it
out, leaving the other nodes, the index and the counters untouched. -/
theorem removeFromList_spec (c : LruCache) (A B : List Nat) (nid : Nat)
    (hch : LruChain c.heap none (A ++ nid :: B) none)
    (hhd : c.head = headOr (A ++ nid :: B) none)
    (htl : c.tail = back none (A ++ nid :: B))
    (hnd : (A ++ nid :: B).Nodup) :
    ∃ c2, Lru.removeFromList c nid = some c2 ∧
      LruChain c2.heap none (A ++ B) none ∧
      c2.head = headOr (A ++ B) none ∧
      c2.tail = back none (A ++ B) ∧
      KeysSame c.heap c2.heap ∧
      c2.data = c.data ∧ c2.capacity = c.capacity ∧ c2.nextId = c.nextId ∧
      lookupA c2.heap nid = lookupA c.heap nid := by
  have hndA : A.Nodup := ((List.nodup_append.1 hnd).1)
  have hndCB : (nid :: B).Nodup := ((List.nodup_append.1 hnd).2.1)
  have hdisj : ∀ a ∈ A, a ∉ nid :: B := (List.nodup_append.1 hnd).2.2
  have hnidA : nid ∉ A := fun hmem => hdisj nid hmem (List.mem_cons_self nid B)
  have hnidB : nid ∉ B := (List.nodup_cons.1 hndCB).1
  have hndB : B.Nodup := (List.nodup_cons.1 hndCB).2
  have hsplit := (chainF_append LruEntry.prev LruEntry.next c.heap A (nid :: B) none none).1 hch
  have hA : LruChain c.heap none A (some nid) := hsplit.1
  have hmid := hsplit.2
  simp only [ChainF] at hmid
  obtain ⟨e, he, hep, hen, hB⟩ := hmid
  rcases List.eq_nil_or_concat A with rfl | ⟨A0, p, hAeq⟩
  · -- node is the head of the list
    have hepn : e.prev = none := by simpa [back] using hep
    cases B with
    | nil =>
        -- the only node: head and tail both become nil
        refine ⟨{ c with head := none, tail := none }, ?_, ?_, ?_, ?_, ?_, rfl, rfl, rfl, ?_⟩
        · have henn : e.next = none := by simpa [headOr] using hen
          simp [Lru.removeFromList, Lru.hGet, he, hepn, henn]
        · trivial
        · rfl
        · rfl
        · exact keysSame_refl _
        · rfl
    | cons nx B' =>
        have henx : e.next = some nx := by simpa [headOr] using hen
        simp only [ChainF] at hB
        obtain ⟨en, hne, hnep, hnen, hB'⟩ := hB
        have hnxB' : nx ∉ B' := (List.nodup_cons.1 hndB).1
        have hnidnx : nid ≠ nx := fun hh => hnidB (hh ▸ List.mem_cons_self nx B')
        refine ⟨{ c with head := some nx, heap := insertA c.heap nx { en with prev := none } }, ?_, ?_, rfl, ?_, ?_, rfl, rfl, rfl, ?_⟩
        · simp [Lru.removeFromList, Lru.hGet, Lru.hSet, he, hepn, henx, hne]
        · -- the new chain is nx :: B'
          refine ⟨{ en with prev := none }, lookupA_insertA_self _ _ _, rfl, ?_, ?_⟩
          · simpa using hnen
          · refine chainF_congr _ _ c.heap _ B' (some nx) none ?_ hB'
            intro i hi
            exact lookupA_insertA_ne _ _ _ _ (fun hh => hnxB' (hh ▸ hi))
        · -- the tail is unchanged
          rw [htl]; rfl
        · exact keysSame_insert _ _ en _ hne rfl
        · rw [lookupA_insertA_ne _ _ _ _ hnidnx]
  · -- node has a predecessor p, the last id of A = A0 ++ [p]
    rw [List.concat_eq_append] at hAeq
    subst hAeq
    have hepp : e.prev = some p := by rw [hep, back_concat]
    have hpA : p ∈ A0 ++ [p] := List.mem_append.2 (Or.inr (List.mem_cons_self p []))
    have hnidp : nid ≠ p := fun hh => hnidA (hh ▸ hpA)
    have hsplitA := (chainF_append LruEntry.prev LruEntry.next c.heap A0 [p] none (some nid)).1 hA
    have hA0 : LruChain c.heap none A0 (some p) := by
      have := hsplitA.1
      simpa [headOr] using this
    have hple := hsplitA.2
    simp only [ChainF] at hple
    obtain ⟨pe, hpe, hpep, hpen, -⟩ := hple
    have hdisjA : ∀ a ∈ A0, a ∉ [p] := (List.nodup_append.1 hndA).2.2
    have hpA0 : p ∉ A0 := fun hmem => hdisjA p hmem (List.mem_cons_self p [])
    cases B with
    | nil =>
        have henn : e.next = none := by simpa [headOr] using hen
        have hlook : lookupA (insertA c.heap p { pe with next := none }) nid = some e := by
          rw [lookupA_insertA_ne _ _ _ _ hnidp]; exact he
        refine ⟨{ c with tail := some p, heap := insertA c.heap p { pe with next := none } }, ?_, ?_, ?_, ?_, ?_, rfl, rfl, rfl, ?_⟩
        · simp [Lru.removeFromList, Lru.hGet, Lru.hSet, he, hepp, henn, hpe, hlook]
        · -- the new chain is A0 ++ [p]
          rw [List.append_nil]
          refine (chainF_append LruEntry.prev LruEntry.next _ A0 [p] none none).2 ⟨?_, ?_⟩
          · refine chainF_congr _ _ c.heap _ A0 none (headOr [p] none) ?_ ?_
            · intro i hi
              exact lookupA_insertA_ne _ _ _ _ (fun hh => hpA0 (hh ▸ hi))
            · simpa [headOr] using hA0
          · exact ⟨{ pe with next := none }, lookupA_insertA_self _ _ _, hpep, rfl, trivial⟩
        · rw [hhd, List.append_nil, headOr_append]
          exact headOr_ne_nil (A0 ++ [p]) _ _ (by simp)
        · rw [List.append_nil, back_concat]
        · exact keysSame_insert _ _ pe _ hpe rfl
        · rw [lookupA_insertA_ne _ _ _ _ hnidp]
    | cons nx B' =>
        have henx : e.next = some nx := by simpa [headOr] using hen
        simp only [ChainF] at hB
        obtain ⟨en, hne, hnep, hnen, hB'⟩ := hB
        have hnxB' : nx ∉ B' := (List.nodup_cons.1 hndB).1
        have hnidnx : nid ≠ nx := fun hh => hnidB (hh ▸ List.mem_cons_self nx B')
        have hpnx : p ≠ nx := fun hh => hdisj p hpA (by
          rw [hh]; exact List.mem_cons_of_mem nid (List.mem_cons_self nx B'))
        have hlook : lookupA (insertA c.heap p { pe with next := some nx }) nid = some e := by
          rw [lookupA_insertA_ne _ _ _ _ hnidp]; exact he
        have hlooknx : lookupA (insertA c.heap p { pe with next := some nx }) nx = some en := by
          rw [lookupA_insertA_ne _ _ _ _ (Ne.symm hpnx)]; exact hne
        refine ⟨{ c with heap := insertA (insertA c.heap p { pe with next := some nx }) nx { en with prev := some p } }, ?_, ?_, ?_, ?_, ?_, rfl, rfl, rfl, ?_⟩
        · simp [Lru.removeFromList, Lru.hGet, Lru.hSet, he, hepp, henx, hpe, hne, hlook, hlooknx]
        · -- the new chain is (A0 ++ [p]) ++ nx :: B'
          refine (chainF_append LruEntry.prev LruEntry.next _ (A0 ++ [p]) (nx :: B') none none).2
            ⟨?_, ?_⟩
          · refine (chainF_append LruEntry.prev LruEntry.next _ A0 [p] none _).2 ⟨?_, ?_⟩
            · refine chainF_congr _ _ c.heap _ A0 none _ ?_ ?_
              · intro i hi
                have hiA : i ∈ A0 ++ [p] := List.mem_append.2 (Or.inl hi)
                have hinx : i ≠ nx := fun hh => hdisj i hiA (by
                  rw [hh]; exact List.mem_cons_of_mem nid (List.mem_cons_self nx B'))
                have hip : i ≠ p := fun hh => hpA0 (hh ▸ hi)
                rw [lookupA_insertA_ne _ _ _ _ hinx, lookupA_insertA_ne _ _ _ _ hip]
              · simpa [headOr] using hA0
            · refine ⟨{ pe with next := some nx }, ?_, hpep, ?_, trivial⟩
              · rw [lookupA_insertA_ne _ _ _ _ hpnx, lookupA_insertA_self]
              · simp [headOr]
          · refine ⟨{ en with prev := some p }, lookupA_insertA_self _ _ _, ?_, ?_, ?_⟩
            · simp [back_concat]
            · simpa using hnen
            · refine chainF_congr _ _ c.heap _ B' (some nx) none ?_ hB'
              intro i hi
              have hip : i ≠ p := fun hh => hdisj p hpA (by
                rw [← hh]; exact List.mem_cons_of_mem nid (List.mem_cons_of_mem nx hi))
              have hinx : i ≠ nx := fun hh => hnxB' (hh ▸ hi)
              rw [lookupA_insertA_ne _ _ _ _ hinx, lookupA_insertA_ne _ _ _ _ hip]
        · rw [hhd]
          exact headOr_append_ne_nil (A0 ++ [p]) (by simp) _ _ _ _
        · rw [htl]
          simp [back_append, back]
        · have hk1 : KeysSame c.heap (insertA c.heap p { pe with next := some nx }) :=
            keysSame_insert _ _ pe _ hpe rfl
          have hk2 : KeysSame (insertA c.heap p { pe with next := some nx })
              (insertA (insertA c.heap p { pe with next := some nx }) nx { en with prev := some p }) :=
            keysSame_insert _ _ en _ hlooknx rfl
          exact keysSame_trans hk1 hk2
        · rw [lookupA_insertA_ne _ _ _ _ hnidnx, lookupA_insertA_ne _ _ _ _ hnidp]

/-- `addToFront` on a fresh-or-detached node pushes it to the head of the
list. -/
theorem addToFront_spec (c : LruCache) (L : List Nat) (nid : Nat)
    (hch : LruChain c.heap none L none)
    (hhd : c.head = headOr L none)
    (htl : c.tail = back none L)
    (hnd : L.Nodup)
    (hnot : nid ∉ L)
    (e : LruEntry) (he : lookupA c.heap nid = some e)
    (hnil : L = [] → e.prev = none ∧ e.next = none) :
    ∃ c2, Lru.addToFront c nid = some c2 ∧
      LruChain c2.heap none (nid :: L) none ∧
      c2.head = some nid ∧
      c2.tail = back none (nid :: L) ∧
      KeysSame c.heap c2.heap ∧
      c2.data = c.data ∧ c2.capacity = c.capacity ∧ c2.nextId = c.nextId := by
  cases L with
  | nil =>
      refine ⟨{ c with head := some nid, tail := some nid }, ?_, ?_, rfl, rfl, keysSame_refl _, rfl, rfl, rfl⟩
      · simp [Lru.addToFront, hhd, headOr]
      · exact ⟨e, he, (hnil rfl).1, (hnil rfl).2, trivial⟩
  | cons h0 L' =>
      have hh0 : c.head = some h0 := by rw [hhd]; rfl
      simp only [ChainF] at hch
      obtain ⟨e0, he0, he0p, he0n, hL'⟩ := hch
      have hnid0 : nid ≠ h0 := fun hh => hnot (hh ▸ List.mem_cons_self h0 L')
      have hh0L' : h0 ∉ L' := (List.nodup_cons.1 hnd).1
      have hlook0 : lookupA (insertA c.heap nid { e with next := some h0, prev := none }) h0
          = some e0 := by
        rw [lookupA_insertA_ne _ _ _ _ (Ne.symm hnid0)]; exact he0
      refine ⟨{ c with head := some nid, heap := insertA (insertA c.heap nid { e with next := some h0, prev := none }) h0 { e0 with prev := some nid } }, ?_, ?_, rfl, ?_, ?_, rfl, rfl, rfl⟩
      · simp [Lru.addToFront, Lru.hGet, Lru.hSet, hh0, he, hlook0]
      · -- the new chain is nid :: h0 :: L'
        refine ⟨{ e with next := some h0, prev := none }, ?_, rfl, rfl, ?_⟩
        · rw [lookupA_insertA_ne _ _ _ _ hnid0, lookupA_insertA_self]
        · refine ⟨{ e0 with prev := some nid }, lookupA_insertA_self _ _ _, rfl, ?_, ?_⟩
          · simpa using he0n
          · refine chainF_congr _ _ c.heap _ L' (some h0) none ?_ hL'
            intro i hi
            have hin : i ≠ nid := fun hh => hnot (hh ▸ List.mem_cons_of_mem h0 hi)
            have hih0 : i ≠ h0 := fun hh => hh0L' (hh ▸ hi)
            rw [lookupA_insertA_ne _ _ _ _ hih0, lookupA_insertA_ne _ _ _ _ hin]
      · rw [htl]; rfl
      · have hk1 : KeysSame c.heap (insertA c.heap nid { e with next := some h0, prev := none }) :=
          keysSame_insert _ _ e _ he rfl
        have hk2 : KeysSame (insertA c.heap nid { e with next := some h0, prev := none })
            (insertA (insertA c.heap nid { e with next := some h0, prev := none }) h0 { e0 with prev := some nid }) :=
          keysSame_insert _ _ e0 _ hlook0 rfl
        exact keysSame_trans hk1 hk2

/-- `moveToFront` keeps exactly the same ids in the list, reordered so the
target id is at the head. -/
theorem moveToFront_spec (c : LruCache) (L : List Nat) (nid : Nat)
    (hch : LruChain c.heap none L none)
    (hhd : c.head = headOr L none)
    (htl : c.tail = back none L)
    (hnd : L.Nodup)
    (hmem : nid ∈ L) :
    ∃ c2 L2, Lru.moveToFront c nid = some c2 ∧
      LruChain c2.heap none L2 none ∧
      c2.head = headOr L2 none ∧
      c2.tail = back none L2 ∧
      L2.Nodup ∧
      (∀ i, i ∈ L2 ↔ i ∈ L) ∧
      KeysSame c.heap c2.heap ∧
      c2.data = c.data ∧ c2.capacity = c.capacity ∧ c2.nextId = c.nextId := by
  by_cases hhead : c.head = some nid
  · exact ⟨c, L, by simp [Lru.moveToFront, hhead], hch, hhd, htl, hnd, fun i => Iff.rfl,
      keysSame_refl _, rfl, rfl, rfl⟩
  · obtain ⟨A, B, rfl⟩ := List.append_of_mem hmem
    have hAne : A ≠ [] := by
      rintro rfl
      exact hhead (by rw [hhd]; rfl)
    obtain ⟨c1, hrun1, hch1, hhd1, htl1, hk1, hd1, hc1, hn1, hlk1⟩ :=
      removeFromList_spec c A B nid hch hhd htl hnd
    have h1 := List.nodup_append.1 hnd
    have h2 := List.nodup_cons.1 h1.2.1
    have hdisj : ∀ a ∈ A, a ∉ nid :: B := h1.2.2
    have hndAB : (A ++ B).Nodup :=
      List.nodup_append.2 ⟨h1.1, h2.2,
        fun a ha hb => hdisj a ha (List.mem_cons_of_mem nid hb)⟩
    have hnotAB : nid ∉ A ++ B := by
      intro hmem2
      rcases List.mem_append.1 hmem2 with hA | hB
      · exact hdisj nid hA (List.mem_cons_self nid B)
      · exact h2.1 hB
    obtain ⟨e, he⟩ := chainF_lookup LruEntry.prev LruEntry.next c.heap _ none nid none hch
        (List.mem_append.2 (Or.inr (List.mem_cons_self nid B)))
    obtain ⟨c2, hrun2, hch2, hhd2, htl2, hk2, hd2, hc2, hn2⟩ :=
      addToFront_spec c1 (A ++ B) nid hch1 hhd1 htl1 hndAB hnotAB e
        (by rw [hlk1]; exact he)
        (fun hab => absurd (List.append_eq_nil.1 hab).1 hAne)
    refine ⟨c2, nid :: (A ++ B), ?_, hch2, by rw [hhd2]; rfl, htl2, ?_, ?_, ?_, ?_, ?_, ?_⟩
    · simp only [Lru.moveToFront, if_neg hhead, hrun1, Option.bind]
      exact hrun2
    · exact List.nodup_cons.2 ⟨hnotAB, hndAB⟩
    · intro i
      simp only [List.mem_cons, List.mem_append]
      tauto
    · exact keysSame_trans hk1 hk2
    · rw [hd2, hd1]
    · rw [hc2, hc1]
    · rw [hn2, hn1]

/-- Complete well-formedness of an LRU state against its list of ids `L`:
a doubly linked chain from head to tail, index keys without duplicates, index
ids pointing at heap entries carrying the key, `L` holding exactly the live
ids, and all allocated ids below the allocation counter. -/
def LruWfL (c : LruCache) (L : List Nat) : Prop :=
  LruChain c.heap none L none ∧ c.head = headOr L none ∧
  c.tail = back none L ∧ L.Nodup ∧
  (c.data.map Prod.fst).Nodup ∧
  (∀ k i, lookupA c.data k = some i → ∃ e, lookupA c.heap i = some e ∧ e.key = k) ∧
  (∀ i, i ∈ L ↔ ∃ k, lookupA c.data k = some i) ∧
  (∀ i e, lookupA c.heap i = some e → i < c.nextId)

def LruWf (c : LruCache) : Prop := ∃ L, LruWfL c L

theorem nodup_middle (A B : List Nat) (t : Nat) (hnd : (A ++ t :: B).Nodup) :
    (A ++ B).Nodup ∧ t ∉ A ++ B := by
  have h1 := List.nodup_append.1 hnd
  have h2 := List.nodup_cons.1 h1.2.1
  have hdisj : ∀ a ∈ A, a ∉ t :: B := h1.2.2
  constructor
  · exact List.nodup_append.2 ⟨h1.1, h2.2,
      fun a ha hb => hdisj a ha (List.mem_cons_of_mem t hb)⟩
  · intro hmem
    rcases List.mem_append.1 hmem with hA | hB
    · exact hdisj t hA (List.mem_cons_self t B)
    · exact h2.1 hB

theorem mem_middle_iff (A B : List Nat) (t i : Nat) (hnd : (A ++ t :: B).Nodup) :
    i ∈ A ++ B ↔ (i ∈ A ++ t :: B ∧ i ≠ t) := by
  have hnot := (nodup_middle A B t hnd).2
  constructor
  · intro hi
    refine ⟨?_, fun hh => hnot (hh ▸ hi)⟩
    rcases List.mem_append.1 hi with hA | hB
    · exact List.mem_append.2 (Or.inl hA)
    · exact List.mem_append.2 (Or.inr (List.mem_cons_of_mem t hB))
  · rintro ⟨hi, hne⟩
    rcases List.mem_append.1 hi with hA | hB
    · exact List.mem_append.2 (Or.inl hA)
    · rcases List.mem_cons.1 hB with rfl | hB'
      · exact absurd rfl hne
      · exact List.mem_append.2 (Or.inr hB')

/-- Rebuilding well-formedness after an operation that permutes the list but
leaves the index, the keys and the allocation counter unchanged. -/
theorem lruWfL_transport (c c2 : LruCache) (L L2 : List Nat)
    (h : LruWfL c L)
    (hch2 : LruChain c2.heap none L2 none)
    (hhd2 : c2.head = headOr L2 none)
    (htl2 : c2.tail = back none L2)
    (hnd2 : L2.Nodup)
    (hmem2 : ∀ i, i ∈ L2 ↔ i ∈ L)
    (hk : KeysSame c.heap c2.heap)
    (hd : c2.data = c.data)
    (hn : c2.nextId = c.nextId) : LruWfL c2 L2 := by
  obtain ⟨-, -, -, -, hdnd, hkey, hmem, hbound⟩ := h
  refine ⟨hch2, hhd2, htl2, hnd2, by rw [hd]; exact hdnd, ?_, ?_, ?_⟩
  · intro k i hl
    rw [hd] at hl
    obtain ⟨e, he, hek⟩ := hkey k i hl
    have hki := hk i
    rw [he] at hki
    cases hl2 : lookupA c2.heap i with
    | none => rw [hl2] at hki; simp at hki
    | some e2 =>
        rw [hl2] at hki
        simp only [Option.map_some'] at hki
        exact ⟨e2, rfl, (Option.some.inj hki).trans hek⟩
  · intro i
    rw [hmem2 i, hmem i, hd]
  · intro i e hle
    have hki := hk i
    rw [hle] at hki
    cases hl1 : lookupA c.heap i with
    | none => rw [hl1] at hki; simp at hki
    | some e1 => rw [hn]; exact hbound i e1 hl1

/-- Rebuilding well-formedness after a node is spliced out of the list and
its key erased from the index. -/
theorem lruWfL_erase (c c3 : LruCache) (A B : List Nat) (t kt : Nat)
    (h : LruWfL c (A ++ t :: B))
    (hkt : lookupA c.data kt = some t)
    (hch3 : LruChain c3.heap none (A ++ B) none)
    (hhd3 : c3.head = headOr (A ++ B) none)
    (htl3 : c3.tail = back none (A ++ B))
    (hk : KeysSame c.heap c3.heap)
    (hd3 : c3.data = eraseA c.data kt)
    (hn3 : c3.nextId = c.nextId) :
    LruWfL c3 (A ++ B) := by
  obtain ⟨hch, hhd, htl, hnd, hdnd, hkey, hmem, hbound⟩ := h
  have hndAB := (nodup_middle A B t hnd).1
  refine ⟨hch3, hhd3, htl3, hndAB, ?_, ?_, ?_, ?_⟩
  · rw [hd3]; exact nodupKeys_eraseA _ _ hdnd
  · intro k i hl
    rw [hd3, lookupA_eraseA _ _ _ hdnd] at hl
    by_cases hkk : k = kt
    · rw [if_pos hkk] at hl; exact absurd hl (by simp)
    · rw [if_neg hkk] at hl
      obtain ⟨e, he, hek⟩ := hkey k i hl
      have hki := hk i
      rw [he] at hki
      cases hl2 : lookupA c3.heap i with
      | none => rw [hl2] at hki; simp at hki
      | some e2 =>
          rw [hl2] at hki
          simp only [Option.map_some'] at hki
          exact ⟨e2, rfl, (Option.some.inj hki).trans hek⟩
  · intro i
    rw [mem_middle_iff A B t i hnd, hmem i, hd3]
    constructor
    · rintro ⟨⟨k, hkl⟩, hne⟩
      refine ⟨k, ?_⟩
      rw [lookupA_eraseA _ _ _ hdnd]
      have hkkt : k ≠ kt := by
        intro hh
        rw [hh, hkt] at hkl
        exact hne (Option.some.inj hkl).symm
      rw [if_neg hkkt]
      exact hkl
    · rintro ⟨k, hkl⟩
      rw [lookupA_eraseA _ _ _ hdnd] at hkl
      by_cases hkk : k = kt
      · rw [if_pos hkk] at hkl; exact absurd hkl (by simp)
      · rw [if_neg hkk] at hkl
        refine ⟨⟨k, hkl⟩, ?_⟩
        intro hh
        subst hh
        obtain ⟨e, he, hek⟩ := hkey k i hkl
        obtain ⟨e', he', hek'⟩ := hkey kt i hkt
        rw [he] at he'
        exact hkk (hek ▸ hek' ▸ (Option.some.inj he') ▸ rfl)
  · intro i e hle
    have hki := hk i
    rw [hle] at hki
    cases hl1 : lookupA c.heap i with
    | none => rw [hl1] at hki; simp at hki
    | some e1 => rw [hn3]; exact hbound i e1 hl1

/-- `Get` always completes on a well-formed LRU state; it returns the stored
value on a hit, `(0, false)` on a miss, and leaves the index untouched. -/
theorem lruGet_wf (c : LruCache) (k : Nat) (L : List Nat) (h : LruWfL c L) :
    ∃ r c2 L2, Lru.Get c k = some (r, c2) ∧ LruWfL c2 L2 ∧
      c2.data = c.data ∧ c2.capacity = c.capacity ∧
      ((lookupA c.data k).isSome = true → r.2 = true) ∧
    (lookupA c.data k = none → Lru.Get c k = some ((0, false), c)) := by
  obtain ⟨hch, hhd, htl, hnd, hdnd, hkey, hmem, hbound⟩ := h
  cases hl : lookupA c.data k with
  | none =>
      exact ⟨(0, false), c, L, by simp [Lru.Get, hl],
        ⟨hch, hhd, htl, hnd, hdnd, hkey, hmem, hbound⟩, rfl, rfl,
        by intro hs; simp at hs, fun _ => by simp [Lru.Get, hl]⟩
  | some nid =>
      have hmemn : nid ∈ L := (hmem nid).2 ⟨k, hl⟩
      obtain ⟨c2, L2, hrun, hch2, hhd2, htl2, hnd2, hmem2, hk2, hd2, hc2, hn2⟩ :=
        moveToFront_spec c L nid hch hhd htl hnd hmemn
      obtain ⟨e2, he2⟩ := chainF_lookup LruEntry.prev LruEntry.next c2.heap L2 none nid
        none hch2 ((hmem2 nid).2 hmemn)
      refine ⟨(e2.value, true), c2, L2, ?_, ?_, hd2, hc2, fun _ => rfl, ?_⟩
      · simp [Lru.Get, hl, hrun, Lru.hGet, he2]
      · exact lruWfL_transport c c2 L L2
          ⟨hch, hhd, htl, hnd, hdnd, hkey, hmem, hbound⟩ hch2 hhd2 htl2 hnd2 hmem2 hk2 hd2 hn2
      · intro hn; exact absurd hn (by simp)

/-- `Remove` always completes on a well-formed LRU state: a present key is
detached and erased (and only it), an absent key is a no-op returning false. -/
theorem lruRemove_wf (c : LruCache) (k : Nat) (L : List Nat) (h : LruWfL c L) :
    (∀ nid, lookupA c.data k = some nid →
      ∃ c2 L2, Lru.Remove c k = some (true, c2) ∧ LruWfL c2 L2 ∧
        c2.data = eraseA c.data k ∧ c2.capacity = c.capacity) ∧
    (lookupA c.data k = none → Lru.Remove c k = some (false, c)) := by
  obtain ⟨hch, hhd, htl, hnd, hdnd, hkey, hmem, hbound⟩ := h
  constructor
  · intro nid hl
    have hmemn : nid ∈ L := (hmem nid).2 ⟨k, hl⟩
    obtain ⟨A, B, rfl⟩ := List.append_of_mem hmemn
    obtain ⟨c1, hrun1, hch1, hhd1, htl1, hk1, hd1, hc1, hn1, hlk1⟩ :=
      removeFromList_spec c A B nid hch hhd htl hnd
    refine ⟨{ c1 with data := eraseA c1.data k }, A ++ B, ?_, ?_, ?_, hc1⟩
    · simp [Lru.Remove, hl, hrun1]
    · refine lruWfL_erase c { c1 with data := eraseA c1.data k } A B nid k
        ⟨hch, hhd, htl, hnd, hdnd, hkey, hmem, hbound⟩ hl hch1 hhd1 htl1 hk1 ?_ hn1
      simp [hd1]
    · simp [hd1]
  · intro hl
    simp [Lru.Remove, hl]

/-- `Add` always completes on a well-formed LRU state, and keeps the index
within capacity whenever it was within capacity before the call. -/
theorem lruAdd_wf (c : LruCache) (k v : Nat) (L : List Nat) (h : LruWfL c L) :
    ∃ r c2 L2, Lru.Add c k v = some (r, c2) ∧ LruWfL c2 L2 ∧
      c2.capacity = c.capacity ∧
      (c.data.length ≤ c.capacity → c2.data.length ≤ c.capacity) := by
  obtain ⟨hch, hhd, htl, hnd, hdnd, hkey, hmem, hbound⟩ := h
  cases hl : lookupA c.data k with
  | some nid =>
      obtain ⟨e, he, hek⟩ := hkey k nid hl
      have hmemn : nid ∈ L := (hmem nid).2 ⟨k, hl⟩
      have hch1 : LruChain (Lru.hSet c nid { e with value := v }).heap none L none := by
        show LruChain (insertA c.heap nid { e with value := v }) none L none
        refine chainF_congr_links _ _ c.heap _ L none ?_ none hch
        intro i hi e' he'
        by_cases hin : i = nid
        · subst hin
          rw [he] at he'
          obtain rfl := Option.some.inj he'
          exact ⟨{ e with value := v }, lookupA_insertA_self _ _ _, rfl, rfl⟩
        · exact ⟨e', by rw [lookupA_insertA_ne _ _ _ _ hin]; exact he', rfl, rfl⟩
      obtain ⟨c2, L2, hrun, hch2, hhd2, htl2, hnd2, hmem2, hk2, hd2, hc2, hn2⟩ :=
        moveToFront_spec (Lru.hSet c nid { e with value := v }) L nid hch1 hhd htl hnd hmemn
      refine ⟨(false, true), c2, L2, ?_, ?_, hc2, ?_⟩
      · simp [Lru.Add, hl, Lru.hGet, he, hrun]
      · exact lruWfL_transport c c2 L L2 ⟨hch, hhd, htl, hnd, hdnd, hkey, hmem, hbound⟩
          hch2 hhd2 htl2 hnd2 hmem2
          (keysSame_trans (keysSame_insert c.heap nid e { e with value := v } he rfl) hk2)
          hd2 hn2
      · intro hle
        rw [hd2]
        exact hle
  | none =>
      have hheapnone : lookupA c.heap c.nextId = none := by
        cases hh : lookupA c.heap c.nextId with
        | none => rfl
        | some e0 => exact absurd (hbound _ _ hh) (lt_irrefl _)
      have hnotL : c.nextId ∉ L := by
        intro hmem0
        obtain ⟨e0, he0⟩ := chainF_lookup _ _ c.heap L none c.nextId none hch hmem0
        exact absurd (hbound _ _ he0) (lt_irrefl _)
      -- the state after allocation and insertion into the index
      obtain ⟨c2, hrun2, hch2, hhd2, htl2, hk2, hd2, hc2, hn2⟩ :=
        addToFront_spec
          { c with heap := insertA c.heap c.nextId { key := k, value := v, prev := none, next := none },
                   data := insertA c.data k c.nextId, nextId := c.nextId + 1 }
          L c.nextId
          (chainF_congr _ _ c.heap _ L none none
            (fun i hi => lookupA_insertA_ne _ _ _ _ (fun hh => hnotL (hh ▸ hi))) hch)
          hhd htl hnd hnotL
          { key := k, value := v, prev := none, next := none }
          (lookupA_insertA_self _ _ _)
          (fun _ => ⟨rfl, rfl⟩)
      have hd2' : c2.data = insertA c.data k c.nextId := hd2
      have hn2' : c2.nextId = c.nextId + 1 := hn2
      have hc2' : c2.capacity = c.capacity := hc2
      have hk2' : KeysSame
          (insertA c.heap c.nextId { key := k, value := v, prev := none, next := none })
          c2.heap := hk2
      have hlen2 : c2.data.length = c.data.length + 1 := by
        rw [hd2']
        exact length_insertA_absent _ _ _ hl
      -- well-formedness of the grown state
      have hwf2 : LruWfL c2 (c.nextId :: L) := by
        refine ⟨hch2, by rw [hhd2]; rfl, htl2, List.nodup_cons.2 ⟨hnotL, hnd⟩, ?_, ?_, ?_, ?_⟩
        · rw [hd2']
          exact nodupKeys_insertA _ _ _ hdnd
        · intro k' i hl'
          rw [hd2'] at hl'
          by_cases hk' : k' = k
          · subst hk'
            rw [lookupA_insertA_self] at hl'
            obtain rfl := Option.some.inj hl'
            have hki := hk2' c.nextId
            rw [lookupA_insertA_self] at hki
            cases hl2 : lookupA c2.heap c.nextId with
            | none => rw [hl2] at hki; simp at hki
            | some e2 =>
                rw [hl2] at hki
                simp only [Option.map_some'] at hki
                exact ⟨e2, rfl, Option.some.inj hki⟩
          · rw [lookupA_insertA_ne _ _ _ _ hk'] at hl'
            obtain ⟨e', he', hek'⟩ := hkey k' i hl'
            have hine : i ≠ c.nextId := fun hh => by
              rw [hh, hheapnone] at he'
              exact absurd he' (by simp)
            have hki := hk2' i
            rw [lookupA_insertA_ne _ _ _ _ hine, he'] at hki
            cases hl2 : lookupA c2.heap i with
            | none => rw [hl2] at hki; simp at hki
            | some e2 =>
                rw [hl2] at hki
                simp only [Option.map_some'] at hki
                exact ⟨e2, rfl, (Option.some.inj hki).trans hek'⟩
        · intro i
          constructor
          · intro hi
            rcases List.mem_cons.1 hi with rfl | hi'
            · refine ⟨k, ?_⟩
              rw [hd2', lookupA_insertA_self]
            · obtain ⟨k', hk'⟩ := (hmem i).1 hi'
              have hkne : k' ≠ k := fun hh => by rw [hh, hl] at hk'; exact absurd hk' (by simp)
              refine ⟨k', ?_⟩
              rw [hd2', lookupA_insertA_ne _ _ _ _ hkne]
              exact hk'
          · rintro ⟨k', hk'⟩
            rw [hd2'] at hk'
            by_cases hkk : k' = k
            · subst hkk
              rw [lookupA_insertA_self] at hk'
              obtain rfl := Option.some.inj hk'
              exact List.mem_cons_self _ _
            · rw [lookupA_insertA_ne _ _ _ _ hkk] at hk'
              exact List.mem_cons_of_mem _ ((hmem i).2 ⟨k', hk'⟩)
        · intro i e' hle
          have hki := hk2' i
          rw [hle] at hki
          rw [hn2']
          by_cases hin : i = c.nextId
          · rw [hin]; exact Nat.lt_succ_self _
          · rw [lookupA_insertA_ne _ _ _ _ hin] at hki
            cases hl1 : lookupA c.heap i with
            | none => rw [hl1] at hki; simp at hki
            | some e1 => exact Nat.lt_succ_of_lt (hbound i e1 hl1)
      by_cases hcapb : c2.capacity < c2.data.length
      · -- over capacity: the tail is evicted
        rcases List.eq_nil_or_concat (c.nextId :: L) with heq | ⟨A1, t, heq⟩
        · exact absurd heq (by simp)
        rw [List.concat_eq_append] at heq
        have htl2' : c2.tail = some t := by rw [htl2, heq, back_concat]
        have hmemt : t ∈ c.nextId :: L := by
          rw [heq]
          exact List.mem_append.2 (Or.inr (List.mem_cons_self t []))
        obtain ⟨te, hte⟩ :=
          chainF_lookup LruEntry.prev LruEntry.next c2.heap (c.nextId :: L) none t none hch2 hmemt
        have hwfKeep := hwf2
        obtain ⟨hchw, hhdw, htlw, hndw, hdndw, hkeyw, hmemw, hboundw⟩ := hwfKeep
        obtain ⟨kt, hkt⟩ := (hmemw t).1 hmemt
        obtain ⟨e2t, he2t, he2tk⟩ := hkeyw kt t hkt
        have hteq : te.key = kt := by
          rw [hte] at he2t
          rw [← Option.some.inj he2t] at he2tk
          exact he2tk
        have hktfull : lookupA c2.data te.key = some t := by rw [hteq]; exact hkt
        -- well-formedness facts rewritten along the concat decomposition
        have hchw' : LruChain c2.heap none (A1 ++ t :: []) none := by rw [← heq]; exact hchw
        have hhdw' : c2.head = headOr (A1 ++ t :: []) none := by rw [← heq]; exact hhdw
        have htlw' : c2.tail = back none (A1 ++ t :: []) := by rw [← heq]; exact htlw
        have hndw' : (A1 ++ t :: []).Nodup := by rw [← heq]; exact hndw
        obtain ⟨c3, hrun3, hch3, hhd3, htl3, hk3, hd3, hc3, hn3, hlk3⟩ :=
          removeFromList_spec
            { heap := c2.heap, data := eraseA c2.data te.key, capacity := c2.capacity,
              head := c2.head, tail := some t, nextId := c2.nextId } A1 [] t
            hchw' hhdw' (back_concat none A1 t).symm hndw'
        have hwf3 : LruWfL c3 (A1 ++ []) := by
          refine lruWfL_erase c2 c3 A1 [] t te.key ?_ hktfull hch3 hhd3 htl3 hk3 ?_ hn3
          · rw [heq] at hwf2
            exact hwf2
          · rw [hd3]
        have hcc3 : c3.capacity = c.capacity := by rw [hc3]; exact hc2'
        refine ⟨(true, false), c3, A1 ++ [], ?_, hwf3, hcc3, ?_⟩
        · simp [Lru.Add, hl, hrun2, hcapb, Lru.removeTail, htl2', Lru.hGet, hte]
          rw [hrun3]
          rfl
        · intro hle
          have hlen3 : c3.data.length + 1 = c2.data.length := by
            rw [hd3]
            show (eraseA c2.data te.key).length + 1 = c2.data.length
            exact length_eraseA_present _ _ (by rw [hktfull]; rfl)
          omega
      · -- within capacity: plain insert
        refine ⟨(false, false), c2, c.nextId :: L, ?_, hwf2, hc2', ?_⟩
        · simp [Lru.Add, hl, hrun2, hcapb]
        · intro _
          rw [hc2'] at hcapb
          exact Nat.not_lt.1 hcapb

theorem length_eraseA_le {β : Type} (l : Assoc β) (k : Nat) :
    (eraseA l k).length ≤ l.length := by
  induction l with
  | nil => simp [eraseA]
  | cons hd t ih =>
      obtain ⟨a, b⟩ := hd
      by_cases ha : a = k
      · simp [eraseA, ha]
      · simp only [eraseA, if_neg ha, List.length_cons]
        exact Nat.succ_le_succ ih

/-- The master invariant carried through every LRU run: well-formedness, the
fixed capacity, and the capacity bound on the index. -/
def LruInv (cap : Nat) (c : LruCache) : Prop :=
  LruWf c ∧ c.capacity = cap ∧ c.data.length ≤ cap

theorem lruStep_inv (cap : Nat) (c c2 : LruCache) (op : Op)
    (h : LruInv cap c) (hstep : lruStep c op = some c2) : LruInv cap c2 := by
  obtain ⟨⟨L, hwf⟩, hcap, hlen⟩ := h
  cases op with
  | add k v =>
      obtain ⟨r, c2', L2, hrun, hwf2, hc2, hlenf⟩ := lruAdd_wf c k v L hwf
      simp only [lruStep, hrun, Option.map_some'] at hstep
      obtain rfl := Option.some.inj hstep
      refine ⟨⟨L2, hwf2⟩, hc2.trans hcap, ?_⟩
      rw [← hcap]
      exact hlenf (by rw [hcap]; exact hlen)
  | get k =>
      obtain ⟨r, c2', L2, hrun, hwf2, hd2, hc2, -, -⟩ := lruGet_wf c k L hwf
      simp only [lruStep, hrun, Option.map_some'] at hstep
      obtain rfl := Option.some.inj hstep
      exact ⟨⟨L2, hwf2⟩, hc2.trans hcap, by rw [hd2]; exact hlen⟩
  | rem k =>
      obtain ⟨hpres, habs⟩ := lruRemove_wf c k L hwf
      cases hl : lookupA c.data k with
      | none =>
          have hrem := habs hl
          simp only [lruStep, hrem, Option.map_some'] at hstep
          obtain rfl := Option.some.inj hstep
          exact ⟨⟨L, hwf⟩, hcap, hlen⟩
      | some nid =>
          obtain ⟨c2', L2, hrun, hwf2, hd2, hc2⟩ := hpres nid hl
          simp only [lruStep, hrun, Option.map_some'] at hstep
          obtain rfl := Option.some.inj hstep
          refine ⟨⟨L2, hwf2⟩, hc2.trans hcap, ?_⟩
          rw [hd2]
          exact le_trans (length_eraseA_le _ _) hlen

theorem lruRun_inv (cap : Nat) (ops : List Op) :
    ∀ c c2, LruInv cap c → lruRun c ops = some c2 → LruInv cap c2 := by
  induction ops with
  | nil =>
      intro c c2 h hrun
      simp only [lruRun] at hrun
      obtain rfl := Option.some.inj hrun
      exact h
  | cons op rest ih =>
      intro c c2 h hrun
      simp only [lruRun] at hrun
      cases hstep : lruStep c op with
      | none => rw [hstep] at hrun; exact absurd hrun (by simp)
      | some c1 =>
          rw [hstep] at hrun
          exact ih c1 c2 (lruStep_inv cap c c1 op h hstep) hrun

theorem lruInit_inv (cap : Nat) : LruInv cap (Lru.init cap) := by
  refine ⟨⟨[], trivial, rfl, rfl, List.nodup_nil, ?_, ?_, ?_, ?_⟩, rfl, ?_⟩
  · simp [Lru.init]
  · intro k i hl
    simp [Lru.init, lookupA] at hl
  · intro i
    simp [Lru.init, lookupA]
  · intro i e hl
    simp [Lru.init, lookupA] at hl
  · simp [Lru.init]

/-! ## Well-formed LFU states -/

abbrev LfuChain (h : Assoc LfuEntry) : Option Nat → List Nat → Option Nat → Prop :=
  ChainF LfuEntry.prev LfuEntry.next h

/-- Id `i` is a live entry (reachable from the index) whose frequency field
is `f`. -/
def LiveAt (c : LfuCache) (f i : Nat) : Prop :=
  (∃ k, lookupA c.data k = some i) ∧
  (∃ e, lookupA c.heap i = some e ∧ e.frequency = f)

/-- The two shapes a bucket that is in the frequencies map can have between
operations: either it was emptied (its `any` head/tail fields hold the
typed-nil entry pointer and no live entry has this frequency — such buckets
are never deleted, which is the root defect), or it holds a chain of exactly
the live entries at this frequency. -/
def BucketOk (c : LfuCache) (f : Nat) (fn : FrequencyNode) : Prop :=
  (fn.head = some none ∧ fn.tail = some none ∧ ∀ i, ¬ LiveAt c f i)
  ∨ (∃ L, L ≠ [] ∧ LfuChain c.heap none L none ∧
      fn.head = some (headOr L none) ∧ fn.tail = some (back none L) ∧ L.Nodup ∧
      (∀ i, i ∈ L ↔ LiveAt c f i))

def LfuWf (c : LfuCache) : Prop :=
  (c.data.map Prod.fst).Nodup ∧
  (∀ k i, lookupA c.data k = some i → ∃ e, lookupA c.heap i = some e ∧ e.key = k) ∧
  (∀ k i e, lookupA c.data k = some i → lookupA c.heap i = some e →
    ∃ fn, lookupA c.frequencies e.frequency = some fn) ∧
  (∀ f fn, lookupA c.frequencies f = some fn → BucketOk c f fn) ∧
  (∀ i e, lookupA c.heap i = some e → i < c.nextId) ∧
  (c.data ≠ [] → c.minFrequency = 1 ∧ ∃ fn, lookupA c.frequencies 1 = some fn)

/-- Key and frequency of every heap slot unchanged (the list primitives only
rewrite `prev`/`next`). -/
def SameKF (h h2 : Assoc LfuEntry) : Prop :=
  ∀ i, (lookupA h2 i).map (fun e => (e.key, e.frequency)) =
    (lookupA h i).map (fun e => (e.key, e.frequency))

theorem sameKF_refl (h : Assoc LfuEntry) : SameKF h h := fun _ => rfl

theorem sameKF_trans {h1 h2 h3 : Assoc LfuEntry}
    (a : SameKF h1 h2) (b : SameKF h2 h3) : SameKF h1 h3 :=
  fun i => (b i).trans (a i)

theorem sameKF_insert (h : Assoc LfuEntry) (j : Nat) (e e2 : LfuEntry)
    (hj : lookupA h j = some e) (hk : e2.key = e.key) (hf : e2.frequency = e.frequency) :
    SameKF h (insertA h j e2) := by
  intro i
  by_cases hij : i = j
  · subst hij
    rw [lookupA_insertA_self, hj]
    simp [hk, hf]
  · rw [lookupA_insertA_ne _ _ _ _ hij]

theorem sameKF_key {h h2 : Assoc LfuEntry} (hs : SameKF h h2) (i : Nat) (e : LfuEntry)
    (he : lookupA h i = some e) :
    ∃ e2, lookupA h2 i = some e2 ∧ e2.key = e.key ∧ e2.frequency = e.frequency := by
  have hi := hs i
  rw [he] at hi
  cases h2l : lookupA h2 i with
  | none => rw [h2l] at hi; simp at hi
  | some e2 =>
      rw [h2l] at hi
      simp only [Option.map_some'] at hi
      have := Option.some.inj hi
      exact ⟨e2, rfl, congrArg Prod.fst this, congrArg Prod.snd this⟩

theorem sameKF_none {h h2 : Assoc LfuEntry} (hs : SameKF h h2) (i : Nat)
    (he : lookupA h i = none) : lookupA h2 i = none := by
  have hi := hs i
  rw [he] at hi
  cases h2l : lookupA h2 i with
  | none => rfl
  | some e2 => rw [h2l] at hi; simp at hi

theorem sameKF_some {h h2 : Assoc LfuEntry} (hs : SameKF h h2) (i : Nat) (e2 : LfuEntry)
    (he2 : lookupA h2 i = some e2) :
    ∃ e, lookupA h i = some e ∧ e.key = e2.key ∧ e.frequency = e2.frequency := by
  have hi := hs i
  rw [he2] at hi
  cases hl : lookupA h i with
  | none => rw [hl] at hi; simp at hi
  | some e =>
      rw [hl] at hi
      simp only [Option.map_some'] at hi
      have := Option.some.inj hi
      exact ⟨e, rfl, (congrArg Prod.fst this).symm, (congrArg Prod.snd this).symm⟩

theorem liveAt_unique (c : LfuCache) (f g i : Nat)
    (hf : LiveAt c f i) (hg : LiveAt c g i) : f = g := by
  obtain ⟨-, e, he, hef⟩ := hf
  obtain ⟨-, e', he', hef'⟩ := hg
  rw [he] at he'
  obtain rfl := Option.some.inj he'
  rw [← hef, ← hef']

/-- Transporting a bucket to a state with the same live set at `f` and the
same heap slots on the live set. -/
theorem bucketOk_transport (c c2 : LfuCache) (f : Nat) (fn : FrequencyNode)
    (hb : BucketOk c f fn)
    (hlive : ∀ i, LiveAt c2 f i ↔ LiveAt c f i)
    (hheap : ∀ i, LiveAt c f i → lookupA c2.heap i = lookupA c.heap i) :
    BucketOk c2 f fn := by
  rcases hb with ⟨h1, h2, h3⟩ | ⟨L, hne, hch, hhd, htl, hnd, hmem⟩
  · exact Or.inl ⟨h1, h2, fun i hl => h3 i ((hlive i).1 hl)⟩
  · refine Or.inr ⟨L, hne, ?_, hhd, htl, hnd, fun i => (hmem i).trans (hlive i).symm⟩
    exact chainF_congr _ _ c.heap _ L none none
      (fun i hi => hheap i ((hmem i).1 hi)) hch

theorem insertA_insertA {β : Type} (l : Assoc β) (k : Nat) (a b : β) :
    insertA (insertA l k a) k b = insertA l k b := by
  induction l with
  | nil => simp [insertA]
  | cons hd t ih =>
      obtain ⟨k', v'⟩ := hd
      by_cases h : k' = k
      · subst h; simp [insertA]
      · simp [insertA, h, ih]

theorem back_middle (A : List Nat) (nid nx : Nat) (B' : List Nat) :
    back none (A ++ nid :: nx :: B') = back none (A ++ nx :: B') := by
  rw [back_append, back_append]
  simp [back]

/-- `removeFromFrequency` on a node inside its (well-linked) bucket splices
it out, writes the updated head/tail interface values back, never deletes
the bucket (the written head is a wrapped pointer, never the nil interface),
and clears the node's own links. -/
theorem removeFromFrequency_spec (c : LfuCache) (nid : Nat) (e : LfuEntry) (fn : FrequencyNode)
    (A B : List Nat)
    (he : lookupA c.heap nid = some e)
    (hfn : lookupA c.frequencies e.frequency = some fn)
    (hch : LfuChain c.heap none (A ++ nid :: B) none)
    (hhd : fn.head = some (headOr (A ++ nid :: B) none))
    (htl : fn.tail = some (back none (A ++ nid :: B)))
    (hnd : (A ++ nid :: B).Nodup) :
    ∃ c2, Lfu.removeFromFrequency c (some nid) = some c2 ∧
      LfuChain c2.heap none (A ++ B) none ∧
      c2.frequencies = insertA c.frequencies e.frequency
        { freq := fn.freq, head := some (headOr (A ++ B) none), tail := some (back none (A ++ B)) } ∧
      (∀ j, j ∉ A ++ nid :: B → lookupA c2.heap j = lookupA c.heap j) ∧
      lookupA c2.heap nid = some { e with prev := none, next := none } ∧
      SameKF c.heap c2.heap ∧
      c2.data = c.data ∧ c2.capacity = c.capacity ∧
      c2.minFrequency = c.minFrequency ∧ c2.nextId = c.nextId := by
  have hndA : A.Nodup := (List.nodup_append.1 hnd).1
  have hndCB : (nid :: B).Nodup := (List.nodup_append.1 hnd).2.1
  have hdisj : ∀ a ∈ A, a ∉ nid :: B := (List.nodup_append.1 hnd).2.2
  have hnidA : nid ∉ A := fun hmem => hdisj nid hmem (List.mem_cons_self nid B)
  have hnidB : nid ∉ B := (List.nodup_cons.1 hndCB).1
  have hndB : B.Nodup := (List.nodup_cons.1 hndCB).2
  have hsplit := (chainF_append LfuEntry.prev LfuEntry.next c.heap A (nid :: B) none none).1 hch
  have hA : LfuChain c.heap none A (some nid) := hsplit.1
  have hmid := hsplit.2
  simp only [ChainF] at hmid
  obtain ⟨e', he', hep, hen, hB⟩ := hmid
  rw [he] at he'
  obtain rfl := Option.some.inj he'
  obtain ⟨fq, fh, ft⟩ := fn
  simp only at hhd htl
  subst hhd
  subst htl
  rcases List.eq_nil_or_concat A with rfl | ⟨A0, p, hAeq⟩
  · have hepn : e.prev = none := by simpa [back] using hep
    cases B with
    | nil =>
        have henn : e.next = none := by simpa [headOr] using hen
        refine ⟨{ c with
            frequencies := insertA c.frequencies e.frequency
              { freq := fq, head := some none, tail := some none },
            heap := insertA c.heap nid { e with prev := none, next := none } }, ?_, ?_, rfl, ?_, ?_, ?_, rfl, rfl, rfl, rfl⟩
        · simp [Lfu.removeFromFrequency, Lfu.hGet, Lfu.hSet, he, hfn, hepn, henn]
        · trivial
        · intro j hj
          exact lookupA_insertA_ne _ _ _ _ (fun hh => hj (by rw [hh]; simp))
        · exact lookupA_insertA_self _ _ _
        · exact sameKF_insert _ _ e _ he rfl rfl
    | cons nx B' =>
        have henx : e.next = some nx := by simpa [headOr] using hen
        simp only [ChainF] at hB
        obtain ⟨en, hne, hnep, hnen, hB'⟩ := hB
        have hnxB' : nx ∉ B' := (List.nodup_cons.1 hndB).1
        have hnidnx : nid ≠ nx := fun hh => hnidB (hh ▸ List.mem_cons_self nx B')
        have hlook2 : lookupA (insertA c.heap nx { en with prev := none }) nid = some e := by
          rw [lookupA_insertA_ne _ _ _ _ hnidnx]; exact he
        refine ⟨{ c with
            frequencies := insertA c.frequencies e.frequency
              { freq := fq, head := some (some nx), tail := some (back none (nid :: nx :: B')) },
            heap := insertA (insertA c.heap nx { en with prev := none }) nid
              { e with prev := none, next := none } }, ?_, ?_, ?_, ?_, ?_, ?_, rfl, rfl, rfl, rfl⟩
        · simp [Lfu.removeFromFrequency, Lfu.hGet, Lfu.hSet, he, hfn, hepn, henx, hne, hlook2]
        · refine ⟨{ en with prev := none }, ?_, rfl, ?_, ?_⟩
          · rw [lookupA_insertA_ne _ _ _ _ (Ne.symm hnidnx), lookupA_insertA_self]
          · simpa using hnen
          · refine chainF_congr _ _ c.heap _ B' (some nx) none ?_ hB'
            intro i hi
            have hin : i ≠ nid := fun hh => hnidB (hh ▸ List.mem_cons_of_mem nx hi)
            have hinx : i ≠ nx := fun hh => hnxB' (hh ▸ hi)
            rw [lookupA_insertA_ne _ _ _ _ hin, lookupA_insertA_ne _ _ _ _ hinx]
        · exact rfl
        · intro j hj
          have hjn : j ≠ nid := fun hh => hj (by rw [hh]; simp)
          have hjx : j ≠ nx := fun hh => hj (by rw [hh]; simp)
          rw [lookupA_insertA_ne _ _ _ _ hjn, lookupA_insertA_ne _ _ _ _ hjx]
        · rw [lookupA_insertA_self]
        · have hs1 : SameKF c.heap (insertA c.heap nx { en with prev := none }) :=
            sameKF_insert _ _ en _ hne rfl rfl
          have hs2 : SameKF (insertA c.heap nx { en with prev := none })
              (insertA (insertA c.heap nx { en with prev := none }) nid
                { e with prev := none, next := none }) :=
            sameKF_insert _ _ e _ hlook2 rfl rfl
          exact sameKF_trans hs1 hs2
  · rw [List.concat_eq_append] at hAeq
    subst hAeq
    have hepp : e.prev = some p := by rw [hep, back_concat]
    have hpA : p ∈ A0 ++ [p] := List.mem_append.2 (Or.inr (List.mem_cons_self p []))
    have hnidp : nid ≠ p := fun hh => hnidA (hh ▸ hpA)
    have hsplitA := (chainF_append LfuEntry.prev LfuEntry.next c.heap A0 [p] none (some nid)).1 hA
    have hA0 : LfuChain c.heap none A0 (some p) := by
      have hx := hsplitA.1
      simpa [headOr] using hx
    have hple := hsplitA.2
    simp only [ChainF] at hple
    obtain ⟨pe, hpe, hpep, hpen, -⟩ := hple
    have hdisjA : ∀ a ∈ A0, a ∉ [p] := (List.nodup_append.1 hndA).2.2
    have hpA0 : p ∉ A0 := fun hmem => hdisjA p hmem (List.mem_cons_self p [])
    cases B with
    | nil =>
        have henn : e.next = none := by simpa [headOr] using hen
        have hlook2 : lookupA (insertA c.heap p { pe with next := none }) nid = some e := by
          rw [lookupA_insertA_ne _ _ _ _ hnidp]; exact he
        refine ⟨{ c with
            frequencies := insertA c.frequencies e.frequency
              { freq := fq, head := some (headOr (A0 ++ [p] ++ nid :: []) none), tail := some (some p) },
            heap := insertA (insertA c.heap p { pe with next := none }) nid
              { e with prev := none, next := none } }, ?_, ?_, ?_, ?_, ?_, ?_, rfl, rfl, rfl, rfl⟩
        · simp [Lfu.removeFromFrequency, Lfu.hGet, Lfu.hSet, he, hfn, hepp, henn, hpe, hlook2]
        · rw [List.append_nil]
          refine (chainF_append LfuEntry.prev LfuEntry.next _ A0 [p] none none).2 ⟨?_, ?_⟩
          · refine chainF_congr _ _ c.heap _ A0 none (headOr [p] none) ?_ ?_
            · intro i hi
              have hin : i ≠ nid := fun hh =>
                hnidA (hh ▸ List.mem_append.2 (Or.inl hi))
              have hip : i ≠ p := fun hh => hpA0 (hh ▸ hi)
              rw [lookupA_insertA_ne _ _ _ _ hin, lookupA_insertA_ne _ _ _ _ hip]
            · simpa [headOr] using hA0
          · refine ⟨{ pe with next := none }, ?_, hpep, rfl, trivial⟩
            rw [lookupA_insertA_ne _ _ _ _ (Ne.symm hnidp), lookupA_insertA_self]
        · show insertA c.frequencies e.frequency _ = insertA c.frequencies e.frequency _
          rw [headOr_append_ne_nil (A0 ++ [p]) (by simp) (nid :: []) [] none none,
            List.append_nil, back_concat none A0 p]
        · intro j hj
          have hjn : j ≠ nid := fun hh => hj (by rw [hh]; simp)
          have hjp : j ≠ p := fun hh => hj (by rw [hh]; simp)
          rw [lookupA_insertA_ne _ _ _ _ hjn, lookupA_insertA_ne _ _ _ _ hjp]
        · rw [lookupA_insertA_self]
        · have hs1 : SameKF c.heap (insertA c.heap p { pe with next := none }) :=
            sameKF_insert _ _ pe _ hpe rfl rfl
          have hs2 : SameKF (insertA c.heap p { pe with next := none })
              (insertA (insertA c.heap p { pe with next := none }) nid
                { e with prev := none, next := none }) :=
            sameKF_insert _ _ e _ hlook2 rfl rfl
          exact sameKF_trans hs1 hs2
    | cons nx B' =>
        have henx : e.next = some nx := by simpa [headOr] using hen
        simp only [ChainF] at hB
        obtain ⟨en, hne, hnep, hnen, hB'⟩ := hB
        have hnxB' : nx ∉ B' := (List.nodup_cons.1 hndB).1
        have hnidnx : nid ≠ nx := fun hh => hnidB (hh ▸ List.mem_cons_self nx B')
        have hpnx : p ≠ nx := fun hh => hdisj p hpA (by
          rw [hh]; exact List.mem_cons_of_mem nid (List.mem_cons_self nx B'))
        have hlookx : lookupA (insertA c.heap p { pe with next := some nx }) nx = some en := by
          rw [lookupA_insertA_ne _ _ _ _ (Ne.symm hpnx)]; exact hne
        have hlook2 : lookupA (insertA c.heap p { pe with next := some nx }) nid = some e := by
          rw [lookupA_insertA_ne _ _ _ _ hnidp]; exact he
        have hlook3 : lookupA (insertA (insertA c.heap p { pe with next := some nx }) nx
            { en with prev := some p }) nid = some e := by
          rw [lookupA_insertA_ne _ _ _ _ hnidnx]; exact hlook2
        refine ⟨{ c with
            frequencies := insertA c.frequencies e.frequency
              { freq := fq, head := some (headOr (A0 ++ [p] ++ nid :: nx :: B') none),
                tail := some (back none (A0 ++ [p] ++ nid :: nx :: B')) },
            heap := insertA (insertA (insertA c.heap p { pe with next := some nx }) nx
              { en with prev := some p }) nid
              { e with prev := none, next := none } }, ?_, ?_, ?_, ?_, ?_, ?_, rfl, rfl, rfl, rfl⟩
        · simp [Lfu.removeFromFrequency, Lfu.hGet, Lfu.hSet, he, hfn, hepp, henx, hpe, hne,
            hlook2, hlookx, hlook3]
        · refine (chainF_append LfuEntry.prev LfuEntry.next _ (A0 ++ [p]) (nx :: B') none none).2
            ⟨?_, ?_⟩
          · refine (chainF_append LfuEntry.prev LfuEntry.next _ A0 [p] none _).2 ⟨?_, ?_⟩
            · refine chainF_congr _ _ c.heap _ A0 none _ ?_ ?_
              · intro i hi
                have hiA : i ∈ A0 ++ [p] := List.mem_append.2 (Or.inl hi)
                have hin : i ≠ nid := fun hh => hnidA (hh ▸ hiA)
                have hinx : i ≠ nx := fun hh => hdisj i hiA (by
                  rw [hh]; exact List.mem_cons_of_mem nid (List.mem_cons_self nx B'))
                have hip : i ≠ p := fun hh => hpA0 (hh ▸ hi)
                rw [lookupA_insertA_ne _ _ _ _ hin, lookupA_insertA_ne _ _ _ _ hinx,
                  lookupA_insertA_ne _ _ _ _ hip]
              · simpa [headOr] using hA0
            · refine ⟨{ pe with next := some nx }, ?_, hpep, ?_, trivial⟩
              · rw [lookupA_insertA_ne _ _ _ _ (Ne.symm hnidp),
                  lookupA_insertA_ne _ _ _ _ hpnx, lookupA_insertA_self]
              · simp [headOr]
          · refine ⟨{ en with prev := some p }, ?_, ?_, ?_, ?_⟩
            · rw [lookupA_insertA_ne _ _ _ _ (Ne.symm hnidnx), lookupA_insertA_self]
            · simp [back_concat]
            · simpa using hnen
            · refine chainF_congr _ _ c.heap _ B' (some nx) none ?_ hB'
              intro i hi
              have hin : i ≠ nid := fun hh => hnidB (hh ▸ List.mem_cons_of_mem nx hi)
              have hinx : i ≠ nx := fun hh => hnxB' (hh ▸ hi)
              have hip : i ≠ p := fun hh => hdisj p hpA (by
                rw [← hh]; exact List.mem_cons_of_mem nid (List.mem_cons_of_mem nx hi))
              rw [lookupA_insertA_ne _ _ _ _ hin, lookupA_insertA_ne _ _ _ _ hinx,
                lookupA_insertA_ne _ _ _ _ hip]
        · show insertA c.frequencies e.frequency _ = insertA c.frequencies e.frequency _
          rw [headOr_append_ne_nil (A0 ++ [p]) (by simp) (nid :: nx :: B') (nx :: B') none none,
            back_middle (A0 ++ [p]) nid nx B']
        · intro j hj
          have hjn : j ≠ nid := fun hh => hj (by rw [hh]; simp)
          have hjx : j ≠ nx := fun hh => hj (by rw [hh]; simp)
          have hjp : j ≠ p := fun hh => hj (by rw [hh]; simp)
          rw [lookupA_insertA_ne _ _ _ _ hjn, lookupA_insertA_ne _ _ _ _ hjx,
            lookupA_insertA_ne _ _ _ _ hjp]
        · rw [lookupA_insertA_self]
        · have hs1 : SameKF c.heap (insertA c.heap p { pe with next := some nx }) :=
            sameKF_insert _ _ pe _ hpe rfl rfl
          have hs2 : SameKF (insertA c.heap p { pe with next := some nx })
              (insertA (insertA c.heap p { pe with next := some nx }) nx
                { en with prev := some p }) :=
            sameKF_insert _ _ en _ hlookx rfl rfl
          have hs3 : SameKF (insertA (insertA c.heap p { pe with next := some nx }) nx
                { en with prev := some p })
              (insertA (insertA (insertA c.heap p { pe with next := some nx }) nx
                { en with prev := some p }) nid { e with prev := none, next := none }) :=
            sameKF_insert _ _ e _ hlook3 rfl rfl
          exact sameKF_trans hs1 (sameKF_trans hs2 hs3)

/-- `addToFrequency` when the bucket does not exist yet: it is created and
immediately filled; the heap is untouched. -/
theorem addToFrequency_absent (c : LfuCache) (nid freq : Nat)
    (hfn : lookupA c.frequencies freq = none) :
    Lfu.addToFrequency c nid freq = some { c with frequencies := insertA c.frequencies freq { freq := freq, head := some (some nid), tail := some (some nid) } } := by
  simp [Lfu.addToFrequency, hfn, insertA_insertA]

/-- `addToFrequency` into an emptied bucket whose `any` head field holds the
typed-nil entry pointer: the `head == nil` comparison is false, the nil
pointer is dereferenced (`head.(*entry).prev = node`), and the call panics. -/
theorem addToFrequency_marker (c : LfuCache) (nid freq : Nat) (fn : FrequencyNode)
    (hfn : lookupA c.frequencies freq = some fn)
    (hhd : fn.head = some none) :
    Lfu.addToFrequency c nid freq = none := by
  cases he : lookupA c.heap nid with
  | none => simp [Lfu.addToFrequency, hfn, hhd, Lfu.hGet, he]
  | some e => simp [Lfu.addToFrequency, hfn, hhd, Lfu.hGet, he]

/-- `addToFrequency` into a bucket holding a nonempty chain pushes the node
to the chain's head. -/
theorem addToFrequency_nonempty (c : LfuCache) (nid freq : Nat) (fn : FrequencyNode)
    (h0 : Nat) (L : List Nat) (e : LfuEntry)
    (hfn : lookupA c.frequencies freq = some fn)
    (hch : LfuChain c.heap none (h0 :: L) none)
    (hhd : fn.head = some (some h0))
    (hnot : nid ∉ h0 :: L)
    (he : lookupA c.heap nid = some e)
    (hep : e.prev = none)
    (hnd : (h0 :: L).Nodup) :
    ∃ c2, Lfu.addToFrequency c nid freq = some c2 ∧
      LfuChain c2.heap none (nid :: h0 :: L) none ∧
      c2.frequencies = insertA c.frequencies freq { fn with head := some (some nid) } ∧
      (∀ j, j ≠ nid → j ≠ h0 → lookupA c2.heap j = lookupA c.heap j) ∧
      SameKF c.heap c2.heap ∧
      c2.data = c.data ∧ c2.capacity = c.capacity ∧
      c2.minFrequency = c.minFrequency ∧ c2.nextId = c.nextId := by
  have hnid0 : nid ≠ h0 := fun hh => hnot (hh ▸ List.mem_cons_self h0 L)
  have h0L : h0 ∉ L := (List.nodup_cons.1 hnd).1
  simp only [ChainF] at hch
  obtain ⟨e0, he0, he0p, he0n, hL⟩ := hch
  have hlook0 : lookupA (insertA c.heap nid { e with next := some h0 }) h0 = some e0 := by
    rw [lookupA_insertA_ne _ _ _ _ (Ne.symm hnid0)]; exact he0
  refine ⟨{ c with
      frequencies := insertA c.frequencies freq { fn with head := some (some nid) },
      heap := insertA (insertA c.heap nid { e with next := some h0 }) h0
        { e0 with prev := some nid } }, ?_, ?_, rfl, ?_, ?_, rfl, rfl, rfl, rfl⟩
  · simp [Lfu.addToFrequency, hfn, hhd, Lfu.hGet, Lfu.hSet, he, hlook0]
  · refine ⟨{ e with next := some h0 }, ?_, ?_, rfl, ?_⟩
    · rw [lookupA_insertA_ne _ _ _ _ hnid0, lookupA_insertA_self]
    · simpa using hep
    · refine ⟨{ e0 with prev := some nid }, lookupA_insertA_self _ _ _, rfl, ?_, ?_⟩
      · simpa using he0n
      · refine chainF_congr _ _ c.heap _ L (some h0) none ?_ hL
        intro i hi
        have hin : i ≠ nid := fun hh => hnot (hh ▸ List.mem_cons_of_mem h0 hi)
        have hih0 : i ≠ h0 := fun hh => h0L (hh ▸ hi)
        rw [lookupA_insertA_ne _ _ _ _ hih0, lookupA_insertA_ne _ _ _ _ hin]
  · intro j hjn hj0
    rw [lookupA_insertA_ne _ _ _ _ hj0, lookupA_insertA_ne _ _ _ _ hjn]
  · have hs1 : SameKF c.heap (insertA c.heap nid { e with next := some h0 }) :=
      sameKF_insert _ _ e _ he rfl rfl
    have hs2 : SameKF (insertA c.heap nid { e with next := some h0 })
        (insertA (insertA c.heap nid { e with next := some h0 }) h0
          { e0 with prev := some nid }) :=
      sameKF_insert _ _ e0 _ hlook0 rfl rfl
    exact sameKF_trans hs1 hs2

theorem lookupA_insertA_isSome {β : Type} (l : Assoc β) (k k' : Nat) (v : β)
    (h : ∃ w, lookupA l k' = some w) : ∃ w, lookupA (insertA l k v) k' = some w := by
  by_cases hk : k' = k
  · subst hk; exact ⟨v, lookupA_insertA_self _ _ _⟩
  · rw [lookupA_insertA_ne _ _ _ _ hk]; exact h

/-- Re-establishing LFU well-formedness after a live node `nid` (key `kr`,
bucket chain `A ++ nid :: B`) has been spliced out of its bucket and its key
erased from the index. -/
theorem lfuWf_erase (c c1 : LfuCache) (nid kr : Nat) (e : LfuEntry) (fn : FrequencyNode)
    (A B : List Nat)
    (hwf : LfuWf c)
    (hkr : lookupA c.data kr = some nid)
    (he : lookupA c.heap nid = some e)
    (hfn : lookupA c.frequencies e.frequency = some fn)
    (hmemL : ∀ i, i ∈ A ++ nid :: B ↔ LiveAt c e.frequency i)
    (hndL : (A ++ nid :: B).Nodup)
    (hch1 : LfuChain c1.heap none (A ++ B) none)
    (hfr1 : c1.frequencies = insertA c.frequencies e.frequency
      { freq := fn.freq, head := some (headOr (A ++ B) none), tail := some (back none (A ++ B)) })
    (hout : ∀ j, j ∉ A ++ nid :: B → lookupA c1.heap j = lookupA c.heap j)
    (hkf : SameKF c.heap c1.heap)
    (hd1 : c1.data = c.data) (hcap1 : c1.capacity = c.capacity)
    (hmin1 : c1.minFrequency = c.minFrequency) (hn1 : c1.nextId = c.nextId) :
    LfuWf { c1 with data := eraseA c1.data kr } := by
  obtain ⟨hdnd, hkey, hbex, hbuck, hbound, hminf⟩ := hwf
  have hlivenid : LiveAt c e.frequency nid := ⟨⟨kr, hkr⟩, ⟨e, he, rfl⟩⟩
  have hinj : ∀ k i, lookupA c.data k = some i → i = nid → k = kr := by
    intro k i hk hi
    rw [hi] at hk
    obtain ⟨e1, he1, hek1⟩ := hkey k nid hk
    obtain ⟨e2, he2, hek2⟩ := hkey kr nid hkr
    rw [he1] at he2
    obtain rfl := Option.some.inj he2
    rw [← hek1, hek2]
  -- the live sets of the new state
  have hlive : ∀ g i, LiveAt { c1 with data := eraseA c1.data kr } g i ↔
      (LiveAt c g i ∧ i ≠ nid) := by
    intro g i
    constructor
    · rintro ⟨⟨k, hk⟩, ⟨e2, he2, hef⟩⟩
      simp only at hk he2
      rw [hd1, lookupA_eraseA _ _ _ hdnd] at hk
      by_cases hkk : k = kr
      · rw [if_pos hkk] at hk; exact absurd hk (by simp)
      · rw [if_neg hkk] at hk
        have hine : i ≠ nid := fun hh => hkk (hinj k i hk hh)
        obtain ⟨e', he', hk', hf'⟩ := sameKF_some hkf i e2 he2
        exact ⟨⟨⟨k, hk⟩, ⟨e', he', hf'.symm ▸ hef⟩⟩, hine⟩
    · rintro ⟨⟨⟨k, hk⟩, ⟨e', he', hef⟩⟩, hine⟩
      have hkk : k ≠ kr := by
        intro hh
        rw [hh, hkr] at hk
        exact hine (Option.some.inj hk).symm
      obtain ⟨e2, he2, hk2, hf2⟩ := sameKF_key hkf i e' he'
      refine ⟨⟨k, ?_⟩, ⟨e2, he2, hf2 ▸ hef⟩⟩
      simp only
      rw [hd1, lookupA_eraseA _ _ _ hdnd, if_neg hkk]
      exact hk
  refine ⟨?_, ?_, ?_, ?_, ?_, ?_⟩
  · simp only
    rw [hd1]
    exact nodupKeys_eraseA _ _ hdnd
  · intro k i hk
    simp only at hk
    rw [hd1, lookupA_eraseA _ _ _ hdnd] at hk
    by_cases hkk : k = kr
    · rw [if_pos hkk] at hk; exact absurd hk (by simp)
    · rw [if_neg hkk] at hk
      obtain ⟨e', he', hek'⟩ := hkey k i hk
      obtain ⟨e2, he2, hk2, -⟩ := sameKF_key hkf i e' he'
      exact ⟨e2, he2, hk2.trans hek'⟩
  · intro k i e2 hk he2
    simp only at hk he2 ⊢
    rw [hd1, lookupA_eraseA _ _ _ hdnd] at hk
    by_cases hkk : k = kr
    · rw [if_pos hkk] at hk; exact absurd hk (by simp)
    · rw [if_neg hkk] at hk
      obtain ⟨e', he', hk', hf'⟩ := sameKF_some hkf i e2 he2
      obtain ⟨fn', hfn'⟩ := hbex k i e' hk he'
      rw [hfr1, ← hf']
      exact lookupA_insertA_isSome _ _ _ _ ⟨fn', hfn'⟩
  · intro f fn' hf
    simp only at hf ⊢
    rw [hfr1] at hf
    by_cases hff : f = e.frequency
    · subst hff
      rw [lookupA_insertA_self] at hf
      obtain rfl := Option.some.inj hf
      rcases List.eq_nil_or_concat (A ++ B) with hABnil | ⟨A2, t2, hAB2⟩
      · -- the bucket was emptied: the typed-nil marker stays behind
        refine Or.inl ⟨by rw [hABnil]; rfl, by rw [hABnil]; rfl, ?_⟩
        intro i hlv
        obtain ⟨hc, hne⟩ := (hlive e.frequency i).1 hlv
        have hiAB : i ∈ A ++ B :=
          (mem_middle_iff A B nid i hndL).2 ⟨(hmemL i).2 hc, hne⟩
        rw [hABnil] at hiAB
        simp at hiAB
      · refine Or.inr ⟨A ++ B, ?_, hch1, rfl, rfl, (nodup_middle A B nid hndL).1, ?_⟩
        · rw [hAB2]; simp
        · intro i
          rw [mem_middle_iff A B nid i hndL, hlive e.frequency i]
          exact and_congr_left (fun _ => hmemL i)
    · rw [lookupA_insertA_ne _ _ _ _ hff] at hf
      have hb := hbuck f fn' hf
      refine bucketOk_transport c { c1 with data := eraseA c1.data kr } f fn' hb ?_ ?_
      · intro i
        rw [hlive f i]
        constructor
        · exact fun hh => hh.1
        · intro hc
          refine ⟨hc, ?_⟩
          intro hh
          rw [hh] at hc
          exact hff (liveAt_unique c f e.frequency nid hc hlivenid)
      · intro i hlv
        refine hout i ?_
        intro hmem
        exact hff (liveAt_unique c f e.frequency i hlv ((hmemL i).1 hmem))
  · intro i e2 he2
    simp only at he2 ⊢
    obtain ⟨e', he', -, -⟩ := sameKF_some hkf i e2 he2
    rw [hn1]
    exact hbound i e' he'
  · intro hne
    simp only at hne ⊢
    have hcne : c.data ≠ [] := by
      intro hh
      rw [hd1, hh] at hne
      exact hne rfl
    obtain ⟨hm1, fn1, hfn1⟩ := hminf hcne
    refine ⟨by rw [hmin1, hm1], ?_⟩
    rw [hfr1]
    exact lookupA_insertA_isSome _ _ _ _ ⟨fn1, hfn1⟩

/-- `Remove` always completes on a well-formed LFU state: a present key is
detached from its bucket and erased from the index (and nothing else), an
absent key is a no-op returning false. -/
theorem lfuRemove_wf (c : LfuCache) (k : Nat) (hwf : LfuWf c) :
    (∀ nid, lookupA c.data k = some nid →
      ∃ c2, Lfu.Remove c k = some (true, c2) ∧ LfuWf c2 ∧
        c2.data = eraseA c.data k ∧ c2.capacity = c.capacity ∧
        c2.minFrequency = c.minFrequency ∧ c2.nextId = c.nextId) ∧
    (lookupA c.data k = none → Lfu.Remove c k = some (false, c)) := by
  have hwfK := hwf
  obtain ⟨hdnd, hkey, hbex, hbuck, hbound, hminf⟩ := hwfK
  constructor
  · intro nid hl
    obtain ⟨e, he, hek⟩ := hkey k nid hl
    obtain ⟨fn, hfn⟩ := hbex k nid e hl he
    have hlv : LiveAt c e.frequency nid := ⟨⟨k, hl⟩, ⟨e, he, rfl⟩⟩
    rcases hbuck e.frequency fn hfn with ⟨-, -, hnone⟩ | ⟨L, hLne, hch, hhd, htl, hnd, hmem⟩
    · exact absurd hlv (hnone nid)
    · have hmemn : nid ∈ L := (hmem nid).2 hlv
      obtain ⟨A, B, rfl⟩ := List.append_of_mem hmemn
      obtain ⟨c1, hrun1, hch1, hfr1, hout1, hnid1, hkf1, hd1, hcap1, hmin1, hn1⟩ :=
        removeFromFrequency_spec c nid e fn A B he hfn hch hhd htl hnd
      refine ⟨{ c1 with data := eraseA c1.data k }, ?_, ?_, ?_, hcap1, hmin1, hn1⟩
      · simp [Lfu.Remove, hl, hrun1]
      · exact lfuWf_erase c c1 nid k e fn A B hwf hl he hfn hmem hnd
          hch1 hfr1 hout1 hkf1 hd1 hcap1 hmin1 hn1
      · simp [hd1]
  · intro hl
    simp [Lfu.Remove, hl]

/-- Re-establishing LFU well-formedness after a live node `nid` has moved
from the bucket chain `A ++ nid :: B` at its old frequency to the head of
the (possibly fresh) chain `LNew` at the next frequency. -/
theorem lfuWf_increment (c c3 : LfuCache) (nid kk : Nat) (e : LfuEntry)
    (A B LNew : List Nat) (fnMid bk : FrequencyNode)
    (hwf : LfuWf c)
    (hdk : lookupA c.data kk = some nid)
    (he : lookupA c.heap nid = some e)
    (hmemL : ∀ i, i ∈ A ++ nid :: B ↔ LiveAt c e.frequency i)
    (hndL : (A ++ nid :: B).Nodup)
    (hchF : LfuChain c3.heap none (A ++ B) none)
    (hmidhd : fnMid.head = some (headOr (A ++ B) none))
    (hmidtl : fnMid.tail = some (back none (A ++ B)))
    (hchNew : LfuChain c3.heap none LNew none)
    (hmemNew : ∀ i, i ∈ LNew ↔ (i = nid ∨ LiveAt c (e.frequency + 1) i))
    (hndNew : LNew.Nodup)
    (hNewne : LNew ≠ [])
    (hbkhd : bk.head = some (headOr LNew none))
    (hbktl : bk.tail = some (back none LNew))
    (hfreqF : c3.frequencies =
      insertA (insertA c.frequencies e.frequency fnMid) (e.frequency + 1) bk)
    (hkeyF : ∀ i, (lookupA c3.heap i).map LfuEntry.key =
      (lookupA c.heap i).map LfuEntry.key)
    (hfreqAt : ∀ i, i ≠ nid → (lookupA c3.heap i).map LfuEntry.frequency =
      (lookupA c.heap i).map LfuEntry.frequency)
    (hnidF : ∃ eF, lookupA c3.heap nid = some eF ∧ eF.frequency = e.frequency + 1)
    (houtF : ∀ g i, g ≠ e.frequency → g ≠ e.frequency + 1 → LiveAt c g i →
      lookupA c3.heap i = lookupA c.heap i)
    (hdataF : c3.data = c.data)
    (hminF : c3.minFrequency = c.minFrequency)
    (hnF : c3.nextId = c.nextId) :
    LfuWf c3 := by
  obtain ⟨hdnd, hkey, hbex, hbuck, hbound, hminf⟩ := hwf
  have hlivenid : LiveAt c e.frequency nid := ⟨⟨kk, hdk⟩, ⟨e, he, rfl⟩⟩
  obtain ⟨eF, heF, heFf⟩ := hnidF
  have hfne : e.frequency ≠ e.frequency + 1 := Nat.ne_of_lt (Nat.lt_succ_self _)
  -- the live sets of the new state
  have hlive : ∀ g i, LiveAt c3 g i ↔
      ((i = nid ∧ g = e.frequency + 1) ∨ (LiveAt c g i ∧ i ≠ nid)) := by
    intro g i
    constructor
    · rintro ⟨⟨k, hk⟩, ⟨e2, he2, hef⟩⟩
      rw [hdataF] at hk
      by_cases hin : i = nid
      · subst hin
        rw [heF] at he2
        obtain rfl := Option.some.inj he2
        exact Or.inl ⟨rfl, by rw [← hef, heFf]⟩
      · have hfq := hfreqAt i hin
        rw [he2] at hfq
        cases hcl : lookupA c.heap i with
        | none => rw [hcl] at hfq; simp at hfq
        | some e' =>
            rw [hcl] at hfq
            simp only [Option.map_some'] at hfq
            exact Or.inr ⟨⟨⟨k, hk⟩, ⟨e', hcl, (Option.some.inj hfq).symm.trans hef⟩⟩, hin⟩
    · rintro (⟨rfl, rfl⟩ | ⟨⟨⟨k, hk⟩, ⟨e', he', hef⟩⟩, hin⟩)
      · exact ⟨⟨kk, by rw [hdataF]; exact hdk⟩, ⟨eF, heF, heFf⟩⟩
      · have hfq := hfreqAt i hin
        rw [he'] at hfq
        cases hcl : lookupA c3.heap i with
        | none => rw [hcl] at hfq; simp at hfq
        | some e2 =>
            rw [hcl] at hfq
            simp only [Option.map_some'] at hfq
            exact ⟨⟨k, by rw [hdataF]; exact hk⟩, ⟨e2, hcl, (Option.some.inj hfq).trans hef⟩⟩
  have hnotnew : ∀ i, LiveAt c (e.frequency + 1) i → i ≠ nid := by
    intro i hlv hh
    rw [hh] at hlv
    exact hfne (liveAt_unique c e.frequency (e.frequency + 1) nid hlivenid hlv)
  refine ⟨by rw [hdataF]; exact hdnd, ?_, ?_, ?_, ?_, ?_⟩
  · intro k i hk
    rw [hdataF] at hk
    obtain ⟨e', he', hek'⟩ := hkey k i hk
    have hkq := hkeyF i
    rw [he'] at hkq
    cases hcl : lookupA c3.heap i with
    | none => rw [hcl] at hkq; simp at hkq
    | some e2 =>
        rw [hcl] at hkq
        simp only [Option.map_some'] at hkq
        exact ⟨e2, rfl, (Option.some.inj hkq).trans hek'⟩
  · intro k i e2 hk he2
    rw [hfreqF]
    by_cases hin : i = nid
    · subst hin
      rw [heF] at he2
      obtain rfl := Option.some.inj he2
      rw [heFf]
      exact ⟨bk, lookupA_insertA_self _ _ _⟩
    · have hfq := hfreqAt i hin
      rw [he2] at hfq
      rw [hdataF] at hk
      cases hcl : lookupA c.heap i with
      | none => rw [hcl] at hfq; simp at hfq
      | some e' =>
          rw [hcl] at hfq
          simp only [Option.map_some'] at hfq
          obtain ⟨fn', hfn'⟩ := hbex k i e' hk hcl
          rw [← Option.some.inj hfq] at hfn'
          exact lookupA_insertA_isSome _ _ _ _ (lookupA_insertA_isSome _ _ _ _ ⟨fn', hfn'⟩)
  · intro g fn' hg
    rw [hfreqF] at hg
    by_cases hg1 : g = e.frequency + 1
    · subst hg1
      rw [lookupA_insertA_self] at hg
      obtain rfl := Option.some.inj hg
      refine Or.inr ⟨LNew, hNewne, hchNew, hbkhd, hbktl, hndNew, ?_⟩
      intro i
      rw [hmemNew i, hlive (e.frequency + 1) i]
      constructor
      · rintro (rfl | hlv)
        · exact Or.inl ⟨rfl, rfl⟩
        · exact Or.inr ⟨hlv, hnotnew i hlv⟩
      · rintro (⟨rfl, -⟩ | ⟨hlv, -⟩)
        · exact Or.inl rfl
        · exact Or.inr hlv
    · rw [lookupA_insertA_ne _ _ _ _ hg1] at hg
      by_cases hg0 : g = e.frequency
      · subst hg0
        rw [lookupA_insertA_self] at hg
        obtain rfl := Option.some.inj hg
        rcases List.eq_nil_or_concat (A ++ B) with hABnil | ⟨A2, t2, hAB2⟩
        · refine Or.inl ⟨by rw [hmidhd, hABnil]; rfl, by rw [hmidtl, hABnil]; rfl, ?_⟩
          intro i hlv
          rcases (hlive e.frequency i).1 hlv with ⟨-, hgg⟩ | ⟨hlc, hne⟩
          · exact hfne hgg
          · have hiAB : i ∈ A ++ B :=
              (mem_middle_iff A B nid i hndL).2 ⟨(hmemL i).2 hlc, hne⟩
            rw [hABnil] at hiAB
            simp at hiAB
        · refine Or.inr ⟨A ++ B, by rw [hAB2]; simp, hchF, hmidhd, hmidtl,
            (nodup_middle A B nid hndL).1, ?_⟩
          intro i
          rw [mem_middle_iff A B nid i hndL, hlive e.frequency i]
          constructor
          · rintro ⟨hiL, hne⟩
            exact Or.inr ⟨(hmemL i).1 hiL, hne⟩
          · rintro (⟨-, hgg⟩ | ⟨hlc, hne⟩)
            · exact absurd hgg hfne
            · exact ⟨(hmemL i).2 hlc, hne⟩
      · rw [lookupA_insertA_ne _ _ _ _ hg0] at hg
        have hb := hbuck g fn' hg
        refine bucketOk_transport c c3 g fn' hb ?_ ?_
        · intro i
          rw [hlive g i]
          constructor
          · rintro (⟨-, hgg⟩ | ⟨hlv, -⟩)
            · exact absurd hgg hg1
            · exact hlv
          · intro hlv
            refine Or.inr ⟨hlv, ?_⟩
            intro hh
            rw [hh] at hlv
            exact hg0 (liveAt_unique c g e.frequency nid hlv hlivenid)
        · intro i hlv
          exact houtF g i hg0 hg1 hlv
  · intro i e2 he2
    have hkq := hkeyF i
    rw [he2] at hkq
    rw [hnF]
    cases hcl : lookupA c.heap i with
    | none => rw [hcl] at hkq; simp at hkq
    | some e' => exact hbound i e' hcl
  · intro hne
    rw [hdataF] at hne
    obtain ⟨hm1, fn1, hfn1⟩ := hminf hne
    refine ⟨by rw [hminF, hm1], ?_⟩
    rw [hfreqF]
    exact lookupA_insertA_isSome _ _ _ _ (lookupA_insertA_isSome _ _ _ _ ⟨fn1, hfn1⟩)

theorem sameKF_keymap {h h2 : Assoc LfuEntry} (hs : SameKF h h2) (i : Nat) :
    (lookupA h2 i).map LfuEntry.key = (lookupA h i).map LfuEntry.key := by
  cases hl : lookupA h i with
  | none => rw [sameKF_none hs i hl]
  | some e =>
      obtain ⟨e2, he2, hk, -⟩ := sameKF_key hs i e hl
      rw [he2]
      simp [hk]

theorem sameKF_freqmap {h h2 : Assoc LfuEntry} (hs : SameKF h h2) (i : Nat) :
    (lookupA h2 i).map LfuEntry.frequency = (lookupA h i).map LfuEntry.frequency := by
  cases hl : lookupA h i with
  | none => rw [sameKF_none hs i hl]
  | some e =>
      obtain ⟨e2, he2, -, hf⟩ := sameKF_key hs i e hl
      rw [he2]
      simp [hf]

/-- `incrementFrequency` on a live node either panics (the target bucket is
an emptied typed-nil bucket) or completes into a well-formed state with the
index, capacity, minFrequency and allocation counter unchanged. -/
theorem incrementFrequency_cases (c : LfuCache) (kk nid : Nat)
    (hwf : LfuWf c) (hdk : lookupA c.data kk = some nid) :
    Lfu.incrementFrequency c nid = none ∨
    ∃ c3, Lfu.incrementFrequency c nid = some c3 ∧ LfuWf c3 ∧ c3.data = c.data ∧
      c3.capacity = c.capacity ∧ c3.minFrequency = c.minFrequency ∧
      c3.nextId = c.nextId := by
  have hwfK := hwf
  obtain ⟨hdnd, hkey, hbex, hbuck, hbound, hminf⟩ := hwfK
  obtain ⟨e, he, hek⟩ := hkey kk nid hdk
  obtain ⟨fn, hfn⟩ := hbex kk nid e hdk he
  have hlv : LiveAt c e.frequency nid := ⟨⟨kk, hdk⟩, ⟨e, he, rfl⟩⟩
  have hfne : e.frequency + 1 ≠ e.frequency := Nat.succ_ne_self _
  rcases hbuck e.frequency fn hfn with ⟨-, -, hnone⟩ | ⟨L, hLne, hch, hhd, htl, hnd, hmem⟩
  · exact absurd hlv (hnone nid)
  have hmemn : nid ∈ L := (hmem nid).2 hlv
  obtain ⟨A, B, rfl⟩ := List.append_of_mem hmemn
  obtain ⟨c1, hrun1, hch1, hfr1, hout1, hnid1, hkf1, hd1, hcap1, hmin1, hn1⟩ :=
    removeFromFrequency_spec c nid e fn A B he hfn hch hhd htl hnd
  -- the node after the frequency write
  have hB : lookupA (Lfu.hSet c1 nid
      { key := e.key, value := e.value, frequency := e.frequency + 1, prev := none, next := none }).heap nid =
      some { key := e.key, value := e.value, frequency := e.frequency + 1, prev := none, next := none } := lookupA_insertA_self _ _ _
  have hBout : ∀ j, j ≠ nid → lookupA (Lfu.hSet c1 nid
      { key := e.key, value := e.value, frequency := e.frequency + 1, prev := none, next := none }).heap j = lookupA c1.heap j :=
    fun j hj => lookupA_insertA_ne _ _ _ _ hj
  have hBfr : (Lfu.hSet c1 nid
      { key := e.key, value := e.value, frequency := e.frequency + 1, prev := none, next := none }).frequencies = c1.frequencies := rfl
  have hBfr1 : lookupA (Lfu.hSet c1 nid
      { key := e.key, value := e.value, frequency := e.frequency + 1, prev := none, next := none }).frequencies (e.frequency + 1) =
      lookupA c.frequencies (e.frequency + 1) := by
    rw [hBfr, hfr1, lookupA_insertA_ne _ _ _ _ hfne]
  have hlivenew : ∀ i, LiveAt c (e.frequency + 1) i → i ∉ A ++ nid :: B := by
    intro i hlvi hiL
    exact hfne (liveAt_unique c (e.frequency + 1) e.frequency i hlvi ((hmem i).1 hiL))
  have hlivenid2 : ∀ i, LiveAt c (e.frequency + 1) i → i ≠ nid := by
    intro i hlvi hh
    exact hlivenew i hlvi (by rw [hh]; exact List.mem_append.2 (Or.inr (List.mem_cons_self _ _)))
  cases hb1 : lookupA c.frequencies (e.frequency + 1) with
  | none =>
      -- fresh bucket for the new frequency
      have haddrun := addToFrequency_absent (Lfu.hSet c1 nid
        { key := e.key, value := e.value, frequency := e.frequency + 1, prev := none, next := none }) nid (e.frequency + 1) (by rw [hBfr1]; exact hb1)
      refine Or.inr ⟨{ Lfu.hSet c1 nid { key := e.key, value := e.value, frequency := e.frequency + 1, prev := none, next := none } with frequencies := insertA (Lfu.hSet c1 nid { key := e.key, value := e.value, frequency := e.frequency + 1, prev := none, next := none }).frequencies (e.frequency + 1) { freq := e.frequency + 1, head := some (some nid), tail := some (some nid) } }, ?_, ?_, ?_, ?_, ?_, ?_⟩
      · show Lfu.incrementFrequency c nid = _
        simp only [Lfu.incrementFrequency, Lfu.hGet, he, Option.bind_eq_bind,
          Option.some_bind, hrun1, hnid1, haddrun]
        have hcnd : lookupA (insertA (Lfu.hSet c1 nid
            { key := e.key, value := e.value, frequency := e.frequency + 1, prev := none, next := none }).frequencies (e.frequency + 1)
            { freq := e.frequency + 1, head := some (some nid), tail := some (some nid) })
            e.frequency = some { freq := fn.freq, head := some (headOr (A ++ B) none), tail := some (back none (A ++ B)) } := by
          rw [lookupA_insertA_ne _ _ _ _ (Ne.symm hfne), hBfr, hfr1, lookupA_insertA_self]
        simp [hcnd]
      · refine lfuWf_increment c _ nid kk e A B [nid]
          { freq := fn.freq, head := some (headOr (A ++ B) none), tail := some (back none (A ++ B)) }
          { freq := e.frequency + 1, head := some (some nid), tail := some (some nid) }
          hwf hdk he hmem hnd ?_ rfl rfl ?_ ?_ (by simp) (by simp) rfl rfl ?_ ?_ ?_ ?_ ?_ ?_ ?_ ?_
        · refine chainF_congr _ _ c1.heap _ (A ++ B) none none ?_ hch1
          intro i hi
          have hin : i ≠ nid := fun hh => (nodup_middle A B nid hnd).2 (hh ▸ hi)
          exact hBout i hin
        · exact ⟨{ key := e.key, value := e.value, frequency := e.frequency + 1, prev := none, next := none }, hB, rfl, rfl, trivial⟩
        · intro i
          simp only [List.mem_singleton]
          constructor
          · intro hh; exact Or.inl hh
          · rintro (hh | hlvi)
            · exact hh
            · obtain ⟨⟨k2, hk2⟩, ⟨e2, he2, hef2⟩⟩ := hlvi
              obtain ⟨fn2, hfn2⟩ := hbex k2 i e2 hk2 he2
              rw [hef2, hb1] at hfn2
              exact absurd hfn2 (by simp)
        · show insertA _ _ _ = _
          rw [hBfr, hfr1]
        · intro i
          by_cases hin : i = nid
          · subst hin
            rw [hB, he]
            simp
          · rw [hBout i hin]
            exact sameKF_keymap hkf1 i
        · intro i hin
          rw [hBout i hin]
          exact sameKF_freqmap hkf1 i
        · exact ⟨_, hB, rfl⟩
        · intro g i hg0 hg1 hlvi
          have hiL : i ∉ A ++ nid :: B := by
            intro hiL
            exact hg0 (liveAt_unique c g e.frequency i hlvi ((hmem i).1 hiL))
          have hin : i ≠ nid := fun hh =>
            hiL (by rw [hh]; exact List.mem_append.2 (Or.inr (List.mem_cons_self _ _)))
          rw [hBout i hin]
          exact hout1 i hiL
        · exact hd1
        · exact hmin1
        · exact hn1
      · exact hd1
      · exact hcap1
      · exact hmin1
      · exact hn1
  | some fn1 =>
      rcases hbuck (e.frequency + 1) fn1 hb1 with ⟨hm1, -, -⟩ | ⟨L1, hL1ne, hch1b, hhd1b, htl1b, hnd1b, hmem1b⟩
      · -- the target bucket was emptied: addToFrequency panics
        have haddrun := addToFrequency_marker (Lfu.hSet c1 nid
          { key := e.key, value := e.value, frequency := e.frequency + 1, prev := none, next := none }) nid (e.frequency + 1) fn1
          (by rw [hBfr1]; exact hb1) hm1
        refine Or.inl ?_
        simp only [Lfu.incrementFrequency, Lfu.hGet, he, Option.bind_eq_bind,
          Option.some_bind, hrun1, hnid1, haddrun, Option.none_bind]
      · -- the target bucket holds a nonempty chain
        cases L1 with
        | nil => exact absurd rfl hL1ne
        | cons h0 L2 =>
        have hL1out : ∀ i, i ∈ h0 :: L2 → lookupA (Lfu.hSet c1 nid
            { key := e.key, value := e.value, frequency := e.frequency + 1, prev := none, next := none }).heap i = lookupA c.heap i := by
          intro i hi
          have hlvi : LiveAt c (e.frequency + 1) i := (hmem1b i).1 hi
          rw [hBout i (hlivenid2 i hlvi), hout1 i (hlivenew i hlvi)]
        have hnotnid : nid ∉ h0 :: L2 := fun hh => hlivenid2 nid ((hmem1b nid).1 hh) rfl
        obtain ⟨c3, haddrun, hch3, hfr3, hout3, hkf3, hd3, hcap3, hmin3, hn3⟩ :=
          addToFrequency_nonempty (Lfu.hSet c1 nid
            { key := e.key, value := e.value, frequency := e.frequency + 1, prev := none, next := none }) nid (e.frequency + 1) fn1 h0 L2
            { key := e.key, value := e.value, frequency := e.frequency + 1, prev := none, next := none }
            (by rw [hBfr1]; exact hb1)
            (chainF_congr _ _ c.heap _ (h0 :: L2) none none hL1out hch1b)
            (by rw [hhd1b]; rfl) hnotnid hB rfl hnd1b
        refine Or.inr ⟨c3, ?_, ?_, ?_, ?_, ?_, ?_⟩
        · show Lfu.incrementFrequency c nid = _
          simp only [Lfu.incrementFrequency, Lfu.hGet, he, Option.bind_eq_bind,
            Option.some_bind, hrun1, hnid1, haddrun]
          have hcnd : lookupA c3.frequencies e.frequency =
              some { freq := fn.freq, head := some (headOr (A ++ B) none), tail := some (back none (A ++ B)) } := by
            rw [hfr3, lookupA_insertA_ne _ _ _ _ (Ne.symm hfne), hBfr, hfr1,
              lookupA_insertA_self]
          simp [hcnd]
        · refine lfuWf_increment c c3 nid kk e A B (nid :: h0 :: L2)
            { freq := fn.freq, head := some (headOr (A ++ B) none), tail := some (back none (A ++ B)) }
            { freq := fn1.freq, head := some (some nid), tail := fn1.tail }
            hwf hdk he hmem hnd ?_ rfl rfl hch3 ?_ ?_ (by simp) rfl ?_ ?_ ?_ ?_ ?_ ?_ ?_ ?_ ?_
          · refine chainF_congr _ _ c1.heap _ (A ++ B) none none ?_ hch1
            intro i hi
            have hin : i ≠ nid := fun hh => (nodup_middle A B nid hnd).2 (hh ▸ hi)
            have hi0 : i ≠ h0 := by
              intro hh
              have hlvi : LiveAt c (e.frequency + 1) h0 :=
                (hmem1b h0).1 (List.mem_cons_self h0 L2)
              refine hlivenew h0 hlvi ?_
              rw [← hh]
              exact (mem_middle_iff A B nid i hnd).1 hi |>.1
            rw [hout3 i hin hi0]
            exact hBout i hin
          · intro i
            simp only [List.mem_cons]
            constructor
            · rintro (hh | hi)
              · exact Or.inl hh
              · exact Or.inr ((hmem1b i).1 (List.mem_cons.2 hi))
            · rintro (hh | hlvi)
              · exact Or.inl hh
              · exact Or.inr (List.mem_cons.1 ((hmem1b i).2 hlvi))
          · exact List.nodup_cons.2 ⟨hnotnid, hnd1b⟩
          · show fn1.tail = some (back none (nid :: h0 :: L2))
            rw [htl1b]
            rfl
          · show c3.frequencies = _
            rw [hfr3, hBfr, hfr1]
          · intro i
            by_cases hin : i = nid
            · rw [hin]
              have hq := sameKF_keymap hkf3 nid
              rw [hB] at hq
              rw [hq, he]
              simp
            · by_cases hi0 : i = h0
              · rw [hi0]
                have hq := sameKF_keymap hkf3 h0
                rw [hq, hBout h0 (hi0 ▸ hin)]
                exact sameKF_keymap hkf1 h0
              · rw [hout3 i hin hi0, hBout i hin]
                exact sameKF_keymap hkf1 i
          · intro i hin
            by_cases hi0 : i = h0
            · rw [hi0]
              have hq := sameKF_freqmap hkf3 h0
              rw [hq, hBout h0 (hi0 ▸ hin)]
              exact sameKF_freqmap hkf1 h0
            · rw [hout3 i hin hi0, hBout i hin]
              exact sameKF_freqmap hkf1 i
          · obtain ⟨e3, he3, -, hf3⟩ := sameKF_key hkf3 nid _ hB
            exact ⟨e3, he3, hf3⟩
          · intro g i hg0 hg1 hlvi
            have hiL : i ∉ A ++ nid :: B := by
              intro hiL
              exact hg0 (liveAt_unique c g e.frequency i hlvi ((hmem i).1 hiL))
            have hin : i ≠ nid := fun hh =>
              hiL (by rw [hh]; exact List.mem_append.2 (Or.inr (List.mem_cons_self _ _)))
            have hi0 : i ≠ h0 := by
              intro hh
              have hlvh : LiveAt c (e.frequency + 1) h0 :=
                (hmem1b h0).1 (List.mem_cons_self h0 L2)
              rw [hh] at hlvi
              exact hg1 (liveAt_unique c g (e.frequency + 1) h0 hlvi hlvh)
            rw [hout3 i hin hi0, hBout i hin]
            exact hout1 i hiL
          · rw [hd3]
            show (Lfu.hSet c1 nid _).data = c.data
            exact hd1
          · rw [hmin3]
            exact hmin1
          · rw [hn3]
            exact hn1
        · rw [hd3]
          show (Lfu.hSet c1 nid _).data = c.data
          exact hd1
        · rw [hcap3]
          exact hcap1
        · rw [hmin3]
          exact hmin1
        · rw [hn3]
          exact hn1

theorem lfuGet_wf (c : LfuCache) (k : Nat) (hwf : LfuWf c) :
    Lfu.Get c k = none ∨
    ∃ r c2, Lfu.Get c k = some (r, c2) ∧ LfuWf c2 ∧ c2.data = c.data ∧
      c2.capacity = c.capacity ∧ c2.minFrequency = c.minFrequency ∧
      c2.nextId = c.nextId := by
  cases hdk : lookupA c.data k with
  | none =>
      refine Or.inr ⟨(0, false), c, ?_, hwf, rfl, rfl, rfl, rfl⟩
      simp [Lfu.Get, hdk]
  | some nid =>
      rcases incrementFrequency_cases c k nid hwf hdk with
        hnone | ⟨c3, hrun3, hwf3, hd3, hcap3, hmin3, hn3⟩
      · refine Or.inl ?_
        simp [Lfu.Get, hdk, hnone]
      · have hwfK := hwf3
        obtain ⟨-, hkey3, -, -, -, -⟩ := hwfK
        obtain ⟨e3, he3, -⟩ := hkey3 k nid (by rw [hd3]; exact hdk)
        refine Or.inr ⟨(e3.value, true), c3, ?_, hwf3, hd3, hcap3, hmin3, hn3⟩
        simp [Lfu.Get, hdk, hrun3, Lfu.hGet, he3]

theorem evict_spec (c : LfuCache) (hwf : LfuWf c) (hne : c.data ≠ []) :
    Lfu.evictLeastFrequent c = none ∨
    ∃ c2, Lfu.evictLeastFrequent c = some c2 ∧ LfuWf c2 ∧
      c2.data.length + 1 = c.data.length ∧ c2.capacity = c.capacity ∧
      c2.minFrequency = c.minFrequency ∧ c2.nextId = c.nextId ∧
      (∀ q, lookupA c.data q = none → lookupA c2.data q = none) := by
  have hwfK := hwf
  obtain ⟨hdnd, hkey, hbex, hbuck, hbound, hminf⟩ := hwfK
  obtain ⟨hm1, fn, hfn⟩ := hminf hne
  have hlen0 : ¬ c.data.length = 0 := fun hl => hne (List.length_eq_zero.1 hl)
  rcases hbuck 1 fn hfn with ⟨hmh, hmt, -⟩ | ⟨L, hLne, hch, hhd, htl, hnd, hmem⟩
  · refine Or.inl ?_
    simp [Lfu.evictLeastFrequent, hlen0, hm1, hfn, hmt, Lfu.removeFromFrequency]
  · rcases List.eq_nil_or_concat L with rfl | ⟨A, t, hLeq⟩
    · exact absurd rfl hLne
    subst hLeq
    rw [List.concat_eq_append] at hch hhd htl hnd hmem
    have hlvt : LiveAt c 1 t :=
      (hmem t).1 (List.mem_append.2 (Or.inr (List.mem_cons_self _ _)))
    obtain ⟨⟨k2, hk2⟩, ⟨te0, hte0, htf0⟩⟩ := hlvt
    obtain ⟨te, hte, htek⟩ := hkey k2 t hk2
    rw [hte] at hte0
    obtain rfl := Option.some.inj hte0
    have hdkt : lookupA c.data te.key = some t := by rw [htek]; exact hk2
    have hfnF : lookupA c.frequencies te.frequency = some fn := by rw [htf0]; exact hfn
    obtain ⟨c1, hrun1, hch1, hfr1, hout1, hnid1, hkf1, hd1, hcap1, hmin1, hn1⟩ :=
      removeFromFrequency_spec c t te fn A [] hte hfnF hch
        (by rw [hhd]) (by rw [htl]) hnd
    have htlT : fn.tail = some (some t) := by rw [htl, back_concat]
    have hremEq : Lfu.Remove c te.key =
        some (true, { c1 with data := eraseA c1.data te.key }) := by
      simp [Lfu.Remove, hdkt, hrun1]
    obtain ⟨c2x, hrem, hwf2, hd2, hcap2, hmin2, hn2⟩ :=
      (lfuRemove_wf c te.key hwf).1 t hdkt
    rw [hremEq] at hrem
    simp only [Option.some.injEq, Prod.mk.injEq, true_and] at hrem
    refine Or.inr ⟨{ c1 with data := eraseA c1.data te.key }, ?_, ?_, ?_, ?_, ?_, ?_, ?_⟩
    · simp [Lfu.evictLeastFrequent, hlen0, hm1, hfn, htlT, hrun1, Lfu.hGet, hnid1]
    · rw [hrem]; exact hwf2
    · show (eraseA c1.data te.key).length + 1 = c.data.length
      rw [hd1, length_eraseA_present c.data te.key (by rw [hdkt]; rfl)]
    · exact hcap1
    · exact hmin1
    · exact hn1
    · intro q hq
      show lookupA (eraseA c1.data te.key) q = none
      rw [hd1, lookupA_eraseA c.data te.key q hdnd]
      by_cases hqt : q = te.key
      · simp [hqt]
      · rw [if_neg hqt]; exact hq

/-- Re-establishing LFU well-formedness after a fresh node with key `k` has
been allocated at id `d.nextId` with frequency 1 and pushed onto the head of
the (possibly fresh) frequency-1 chain `LNew`. -/
theorem lfuWf_insert (d c3 : LfuCache) (k : Nat) (LNew : List Nat) (bk : FrequencyNode)
    (hwf : LfuWf d)
    (hk : lookupA d.data k = none)
    (hnidF : ∃ eN, lookupA c3.heap d.nextId = some eN ∧ eN.key = k ∧ eN.frequency = 1)
    (hchNew : LfuChain c3.heap none LNew none)
    (hmemNew : ∀ i, i ∈ LNew ↔ (i = d.nextId ∨ LiveAt d 1 i))
    (hndNew : LNew.Nodup)
    (hNewne : LNew ≠ [])
    (hbkhd : bk.head = some (headOr LNew none))
    (hbktl : bk.tail = some (back none LNew))
    (hfreqF : c3.frequencies = insertA d.frequencies 1 bk)
    (hkeyF : ∀ i, i ≠ d.nextId → (lookupA c3.heap i).map LfuEntry.key =
      (lookupA d.heap i).map LfuEntry.key)
    (hfreqAt : ∀ i, i ≠ d.nextId → (lookupA c3.heap i).map LfuEntry.frequency =
      (lookupA d.heap i).map LfuEntry.frequency)
    (houtF : ∀ g i, g ≠ 1 → LiveAt d g i → lookupA c3.heap i = lookupA d.heap i)
    (hdataF : c3.data = insertA d.data k d.nextId)
    (hminF : c3.minFrequency = 1)
    (hnF : c3.nextId = d.nextId + 1) :
    LfuWf c3 := by
  obtain ⟨hdnd, hkey, hbex, hbuck, hbound, hminf⟩ := hwf
  obtain ⟨eN, heN, heNk, heNf⟩ := hnidF
  have hnotid : ∀ i, (∃ q, lookupA d.data q = some i) → i ≠ d.nextId := by
    rintro i ⟨q, hq⟩ hh
    obtain ⟨e', he', -⟩ := hkey q i hq
    have := hbound i e' he'
    omega
  have hlive : ∀ g i, LiveAt c3 g i ↔
      ((i = d.nextId ∧ g = 1) ∨ LiveAt d g i) := by
    intro g i
    constructor
    · rintro ⟨⟨q, hq⟩, ⟨e2, he2, hef⟩⟩
      rw [hdataF] at hq
      by_cases hqk : q = k
      · subst hqk
        rw [lookupA_insertA_self] at hq
        obtain rfl := Option.some.inj hq
        rw [heN] at he2
        obtain rfl := Option.some.inj he2
        exact Or.inl ⟨rfl, by rw [← hef, heNf]⟩
      · rw [lookupA_insertA_ne _ _ _ _ hqk] at hq
        have hin : i ≠ d.nextId := hnotid i ⟨q, hq⟩
        have hfq := hfreqAt i hin
        rw [he2] at hfq
        cases hcl : lookupA d.heap i with
        | none => rw [hcl] at hfq; simp at hfq
        | some e' =>
            rw [hcl] at hfq
            simp only [Option.map_some'] at hfq
            exact Or.inr ⟨⟨q, hq⟩, ⟨e', hcl, (Option.some.inj hfq).symm.trans hef⟩⟩
    · rintro (⟨rfl, rfl⟩ | ⟨⟨q, hq⟩, ⟨e', he', hef⟩⟩)
      · exact ⟨⟨k, by rw [hdataF]; exact lookupA_insertA_self _ _ _⟩, ⟨eN, heN, heNf⟩⟩
      · have hin : i ≠ d.nextId := hnotid i ⟨q, hq⟩
        have hqk : q ≠ k := fun hh => by rw [hh, hk] at hq; exact absurd hq (by simp)
        have hfq := hfreqAt i hin
        rw [he'] at hfq
        cases hcl : lookupA c3.heap i with
        | none => rw [hcl] at hfq; simp at hfq
        | some e2 =>
            rw [hcl] at hfq
            simp only [Option.map_some'] at hfq
            exact ⟨⟨q, by rw [hdataF, lookupA_insertA_ne _ _ _ _ hqk]; exact hq⟩,
              ⟨e2, hcl, (Option.some.inj hfq).trans hef⟩⟩
  refine ⟨by rw [hdataF]; exact nodupKeys_insertA _ _ _ hdnd, ?_, ?_, ?_, ?_, ?_⟩
  · intro q i hq
    rw [hdataF] at hq
    by_cases hqk : q = k
    · subst hqk
      rw [lookupA_insertA_self] at hq
      obtain rfl := Option.some.inj hq
      exact ⟨eN, heN, heNk⟩
    · rw [lookupA_insertA_ne _ _ _ _ hqk] at hq
      obtain ⟨e', he', hek'⟩ := hkey q i hq
      have hin : i ≠ d.nextId := hnotid i ⟨q, hq⟩
      have hkq := hkeyF i hin
      rw [he'] at hkq
      cases hcl : lookupA c3.heap i with
      | none => rw [hcl] at hkq; simp at hkq
      | some e2 =>
          rw [hcl] at hkq
          simp only [Option.map_some'] at hkq
          exact ⟨e2, rfl, (Option.some.inj hkq).trans hek'⟩
  · intro q i e2 hq he2
    rw [hfreqF]
    by_cases hin : i = d.nextId
    · subst hin
      rw [heN] at he2
      obtain rfl := Option.some.inj he2
      rw [heNf]
      exact ⟨bk, lookupA_insertA_self _ _ _⟩
    · have hfq := hfreqAt i hin
      rw [he2] at hfq
      rw [hdataF] at hq
      have hqk : q ≠ k := by
        intro hh
        subst hh
        rw [lookupA_insertA_self] at hq
        exact hin (Option.some.inj hq).symm
      rw [lookupA_insertA_ne _ _ _ _ hqk] at hq
      cases hcl : lookupA d.heap i with
      | none => rw [hcl] at hfq; simp at hfq
      | some e' =>
          rw [hcl] at hfq
          simp only [Option.map_some'] at hfq
          obtain ⟨fn', hfn'⟩ := hbex q i e' hq hcl
          rw [← Option.some.inj hfq] at hfn'
          exact lookupA_insertA_isSome _ _ _ _ ⟨fn', hfn'⟩
  · intro g fn' hg
    rw [hfreqF] at hg
    by_cases hg1 : g = 1
    · subst hg1
      rw [lookupA_insertA_self] at hg
      obtain rfl := Option.some.inj hg
      refine Or.inr ⟨LNew, hNewne, hchNew, hbkhd, hbktl, hndNew, ?_⟩
      intro i
      rw [hmemNew i, hlive 1 i]
      constructor
      · rintro (rfl | hlv)
        · exact Or.inl ⟨rfl, rfl⟩
        · exact Or.inr hlv
      · rintro (⟨rfl, -⟩ | hlv)
        · exact Or.inl rfl
        · exact Or.inr hlv
    · rw [lookupA_insertA_ne _ _ _ _ hg1] at hg
      have hb := hbuck g fn' hg
      refine bucketOk_transport d c3 g fn' hb ?_ ?_
      · intro i
        rw [hlive g i]
        constructor
        · rintro (⟨-, hgg⟩ | hlv)
          · exact absurd hgg hg1
          · exact hlv
        · exact Or.inr
      · intro i hlv
        exact houtF g i hg1 hlv
  · intro i e2 he2
    rw [hnF]
    by_cases hin : i = d.nextId
    · omega
    · have hkq := hkeyF i hin
      rw [he2] at hkq
      cases hcl : lookupA d.heap i with
      | none => rw [hcl] at hkq; simp at hkq
      | some e' => exact Nat.lt_succ_of_lt (hbound i e' hcl)
  · intro hne3
    exact ⟨hminF, ⟨bk, by rw [hfreqF]; exact lookupA_insertA_self _ _ _⟩⟩
